import Mathlib

/-!
Verification of the hybrid retrieval and ranking pipeline of the
codebase-intelligence repository, as a shallow embedding in Lean 4.

The embedded components (translated from the Python source):
* `BM25Retriever._tokenize`, `BM25Retriever.index`, `BM25Retriever.search`
  (src/retrieval/bm25_retriever.py);
* `HybridRetriever._reciprocal_rank_fusion`, `_expand_with_dependencies`,
  `search` (src/retrieval/hybrid_retriever.py);
* `DependencyGraphBuilder.get_dependencies` / `get_dependents` /
  `get_related_files` (src/utils/dependency_graph.py);
* `LightweightReranker.rerank` and `CrossEncoderReranker.rerank`
  (src/retrieval/reranker.py).

Modelling conventions:
* Python floats are modelled as `ℚ` (all scores produced by the embedded
  code are exact small rationals, so no rounding behaviour is lost);
* Python dicts used as records become structures with `Option` fields for
  keys that may be absent (`result.get("score", 0)` becomes `.score.getD 0`);
* the external BM25 scoring backend (`rank_bm25.BM25Okapi.get_scores`) and
  the external cross-encoder model are opaque score functions passed as
  parameters; the ChromaDB-backed dense stage is an external collaborator
  and its result list is likewise a parameter;
* CPython `sorted(..., reverse=True)` is a stable descending sort; a stable
  sort by a fixed key is extensionally unique, and `List.insertionSort`
  with the ties-true relation `fun a b => key b ≤ key a` is such a stable
  sort, so it is used as the model;
* Python `set`s of strings (whose iteration order is unspecified) are
  modelled as insertion-ordered duplicate-free lists; every property proved
  below is insensitive to the order chosen.
-/

namespace CodebaseIntel

/-! ### Character and string helpers (ASCII fragment used by the code) -/

def isLowerAlphaC (c : Char) : Bool := 'a' ≤ c && c ≤ 'z'

def isUpperAlphaC (c : Char) : Bool := 'A' ≤ c && c ≤ 'Z'

def isDigitC (c : Char) : Bool := '0' ≤ c && c ≤ '9'

/-- `str.lower()` on the ASCII fragment relevant to the embedded code. -/
def asciiLowerChar (c : Char) : Char :=
  if isUpperAlphaC c then Char.ofNat (c.toNat + 32) else c

def pyLower (s : String) : String := String.mk (s.data.map asciiLowerChar)

/-! ### `BM25Retriever._tokenize` (bm25_retriever.py lines 85-95) -/

/-- `re.sub(r'([a-z])([A-Z])', r'\1 \2', text)`: insert a space between a
lowercase letter directly followed by an uppercase letter, scanning left to
right with non-overlapping matches (each match consumes both characters). -/
def camelSub : List Char → List Char
  | [] => []
  | c1 :: rest =>
    match rest with
    | [] => [c1]
    | c2 :: rest2 =>
      if isLowerAlphaC c1 && isUpperAlphaC c2 then
        c1 :: ' ' :: c2 :: camelSub rest2
      else
        c1 :: camelSub (c2 :: rest2)

def isTokChar (c : Char) : Bool := isLowerAlphaC c || isDigitC c

/-- `re.findall(r'[a-z0-9]+', text)`: maximal runs of `[a-z0-9]` characters.
`cur` is the run collected so far, in reverse. -/
def findTokensAux : List Char → List Char → List (List Char)
  | cur, [] => if cur.isEmpty then [] else [cur.reverse]
  | cur, c :: cs =>
    if isTokChar c then
      findTokensAux (c :: cur) cs
    else
      if cur.isEmpty then findTokensAux [] cs
      else cur.reverse :: findTokensAux [] cs

def findTokens (l : List Char) : List (List Char) := findTokensAux [] l

/-- `BM25Retriever._tokenize`.  NOTE the source order: `text.lower()` runs
BEFORE the camelCase regex, then underscores become spaces, then maximal
`[a-z0-9]+` runs of length > 1 are kept. -/
def tokenize (text : String) : List String :=
  if text = "" then []
  else
    let lowered := text.data.map asciiLowerChar
    let splitCamel := camelSub lowered
    let despaced := splitCamel.map (fun c => if c = '_' then ' ' else c)
    let toks := findTokens despaced
    (toks.filter (fun t => 1 < t.length)).map (fun t => String.mk t)

/-! ### Stable descending sort (model of CPython `sorted(..., reverse=True)`)

CPython's sort is stable; `sorted(xs, key=k, reverse=True)` keeps elements
with equal keys in their original relative order.  A stable sort by a fixed
key is extensionally unique, and `List.insertionSort` with the ties-true
total relation `fun a b => key b ≤ key a` is stable for that relation, so
the two functions agree. -/

def pySortDesc {α : Type} (key : α → ℚ) (l : List α) : List α :=
  l.insertionSort (fun a b => key b ≤ key a)

/-! ### Data model: chunks, result records

`CodeChunk` is the dataclass of src/chunking/base_chunker.py (fields used by
the retrieval pipeline).  A retrieval result is a Python dict; keys that may
be absent are `Option` fields (`result.get("score", 0)` is `.score.getD 0`).
The pipeline never stores `score = None`, so a single `Option` layer models
presence/absence faithfully for every reachable state. -/

structure CodeChunk where
  content : String := ""
  chunk_id : String := ""
  file_path : String := ""
  start_line : ℕ := 0
  end_line : ℕ := 0
  chunk_type : String := ""
  name : String := ""
  parent : String := ""
  language : String := "python"
deriving DecidableEq

structure Metadata where
  file_path : String := ""
  chunk_type : String := ""
  name : String := ""
  start_line : ℕ := 0
  end_line : ℕ := 0
  language : String := ""
  from_dependency : Bool := false
deriving DecidableEq

structure SearchResult where
  chunk_id : String := ""
  content : String := ""
  metadata : Metadata := {}
  score : Option ℚ := none
  dense_rank : Option ℕ := none
  bm25_rank : Option ℕ := none
  from_dependency : Bool := false
  rerank_score : Option ℚ := none
  original_score : Option ℚ := none
  cross_encoder_score : Option ℚ := none
deriving DecidableEq

def scoreOf (r : SearchResult) : ℚ := r.score.getD 0

/-- "sorted by the score field in descending order". -/
def sortedByScoreDesc (l : List SearchResult) : Prop :=
  l.Pairwise (fun a b => scoreOf b ≤ scoreOf a)

instance : DecidablePred sortedByScoreDesc := fun l =>
  inferInstanceAs (Decidable (l.Pairwise _))

/-! ### `BM25Retriever` state, `index` and `search`
(bm25_retriever.py lines 11-83).  The external `rank_bm25.BM25Okapi` object
is modelled by the corpus it was built from; its `get_scores` method is an
opaque parameter `getScores` (the library returns one score per corpus
document, so the `getD`/`get?` defaults below are never reached for the real
backend). -/

structure BM25State where
  bm25 : Option (List (List String)) := none
  chunks : List CodeChunk := []
  tokenized_corpus : List (List String) := []
deriving DecidableEq

/-- Fresh `BM25Retriever.__init__` state. -/
def bm25InitState : BM25State := {}

/-- `BM25Retriever.index`, as a transition on the retriever's state
(an early `return` leaves the previous state untouched). -/
def bm25IndexOn (st : BM25State) (chunks : List CodeChunk) : BM25State :=
  if chunks.isEmpty then st
  else
    let tokenized := chunks.map (fun c => tokenize c.content)
    let valid := (chunks.zip tokenized).filter (fun p => !p.2.isEmpty)
    if valid.isEmpty then
      { st with chunks := chunks, tokenized_corpus := tokenized, bm25 := none }
    else
      { bm25 := some (valid.map (·.2)),
        chunks := valid.map (·.1),
        tokenized_corpus := valid.map (·.2) }

/-- `BM25Retriever.search`. -/
def bm25Search (getScores : List (List String) → List String → List ℚ)
    (st : BM25State) (query : String) (top_k : ℕ) : List SearchResult :=
  match st.bm25 with
  | none => []
  | some corpus =>
    if st.chunks.isEmpty then []
    else
      let query_tokens := tokenize query
      if query_tokens.isEmpty then []
      else
        let scores := getScores corpus query_tokens
        let top_indices :=
          (pySortDesc (fun i => scores.getD i 0) (List.range scores.length)).take top_k
        top_indices.filterMap (fun idx =>
          if 0 < scores.getD idx 0 then
            (st.chunks.get? idx).map (fun c =>
              { chunk_id := c.chunk_id, content := c.content,
                metadata := { file_path := c.file_path, chunk_type := c.chunk_type,
                              name := c.name, start_line := c.start_line,
                              end_line := c.end_line, language := c.language },
                score := some (scores.getD idx 0) })
          else none)

/-! ### `HybridRetriever._reciprocal_rank_fusion`
(hybrid_retriever.py lines 96-150).  The Python `scores` dict (string keys,
insertion-ordered) is modelled as a duplicate-free association list whose
entries carry their key; `d[k] = v` replaces in place when the key is
present and appends otherwise, which is exactly CPython dict semantics. -/

/-- Constructor defaults of `HybridRetriever.__init__`. -/
def dense_weight : ℚ := 7/10

def bm25_weight : ℚ := 3/10

/-- `k` parameter of `_reciprocal_rank_fusion`. -/
def k_rrf : ℕ := 60

structure FusionEntry where
  chunk_id : String := ""
  content : String := ""
  metadata : Metadata := {}
  rrf_score : ℚ := 0
  dense_score : Option ℚ := none
  bm25_score : Option ℚ := none
  dense_rank : Option ℕ := none
  bm25_rank : Option ℕ := none
deriving DecidableEq

/-- `scores[chunk_id] = entry` on the insertion-ordered dict. -/
def dictSet (d : List FusionEntry) (e : FusionEntry) : List FusionEntry :=
  if d.any (fun x => x.chunk_id == e.chunk_id) then
    d.map (fun x => if x.chunk_id == e.chunk_id then e else x)
  else
    d ++ [e]

/-- Entry built for a dense result at 0-based enumeration index `rank`. -/
def denseEntry (dw : ℚ) (k rank : ℕ) (r : SearchResult) : FusionEntry :=
  { chunk_id := r.chunk_id, content := r.content, metadata := r.metadata,
    rrf_score := dw / ((k : ℚ) + (rank : ℚ) + 1),
    dense_score := some (r.score.getD 0),
    dense_rank := some (rank + 1) }

/-- In-place update of an existing dict entry by the `bm25_results` loop. -/
def bm25UpdateEntry (bw : ℚ) (k rank : ℕ) (r : SearchResult) (x : FusionEntry) :
    FusionEntry :=
  { x with rrf_score := x.rrf_score + bw / ((k : ℚ) + (rank : ℚ) + 1),
           bm25_score := some (r.score.getD 0),
           bm25_rank := some (rank + 1) }

/-- Fresh dict entry appended by the `bm25_results` loop for an id the dense
pass did not produce. -/
def bm25NewEntry (bw : ℚ) (k rank : ℕ) (r : SearchResult) : FusionEntry :=
  { chunk_id := r.chunk_id, content := r.content, metadata := r.metadata,
    rrf_score := bw / ((k : ℚ) + (rank : ℚ) + 1),
    bm25_score := some (r.score.getD 0),
    bm25_rank := some (rank + 1) }

/-- Body of the loop over `bm25_results` at 0-based index `rank`: bump the
accumulated `rrf_score` when the chunk id is already present, otherwise
append a fresh entry carrying only the lexical contribution. -/
def bm25Step (bw : ℚ) (k : ℕ) (d : List FusionEntry) (rank : ℕ)
    (r : SearchResult) : List FusionEntry :=
  if d.any (fun x => x.chunk_id == r.chunk_id) then
    d.map (fun x =>
      if x.chunk_id == r.chunk_id then bm25UpdateEntry bw k rank r x else x)
  else
    d ++ [bm25NewEntry bw k rank r]

/-- The dict after both loops of `_reciprocal_rank_fusion`. -/
def fusionDict (dw bw : ℚ) (k : ℕ)
    (dense_results bm25_results : List SearchResult) : List FusionEntry :=
  let afterDense := dense_results.enum.foldl
    (fun d p => dictSet d (denseEntry dw k p.1 p.2)) []
  bm25_results.enum.foldl (fun d p => bm25Step bw k d p.1 p.2) afterDense

/-- Projection of a dict entry to the returned result record
(the final loop of `_reciprocal_rank_fusion`). -/
def fusionProj (e : FusionEntry) : SearchResult :=
  { chunk_id := e.chunk_id, content := e.content, metadata := e.metadata,
    score := some e.rrf_score,
    dense_rank := e.dense_rank, bm25_rank := e.bm25_rank }

/-- `HybridRetriever._reciprocal_rank_fusion`: build the dict, sort its
values by `rrf_score` descending (stable), and project to result records. -/
def reciprocalRankFusion (dw bw : ℚ) (dense_results bm25_results : List SearchResult)
    (k : ℕ := 60) : List SearchResult :=
  let scores := fusionDict dw bw k dense_results bm25_results
  if scores.isEmpty then []
  else (pySortDesc (fun e => e.rrf_score) scores).map fusionProj

/-- The reciprocal-rank contribution of one stage list to a chunk id:
`w / (k + r)` at 1-based rank `r` when the id occurs in the list, 0
otherwise (specification formula, used to characterise the code). -/
def rankContrib (w : ℚ) (k : ℕ) (l : List SearchResult) (id : String) : ℚ :=
  match l.enum.find? (fun p => p.2.chunk_id == id) with
  | some p => w / ((k : ℚ) + (p.1 : ℚ) + 1)
  | none => 0

/-! ### Characterisation of the fusion dict -/

def keysOf (d : List FusionEntry) : List String := d.map (fun e => e.chunk_id)

/-- The `rrf_score` stored under a key, `none` when the key is absent. -/
def keyScore (d : List FusionEntry) (id : String) : Option ℚ :=
  (d.find? (fun e => e.chunk_id == id)).map (fun e => e.rrf_score)

/-! ### `DependencyGraphBuilder` queries (dependency_graph.py lines 122-148)

The NetworkX digraph is modelled by its node list and edge list.  Python
`set`s of file-path strings (unspecified iteration order) are modelled as
insertion-ordered duplicate-free lists; the properties proved about the
expansion step do not depend on the order chosen. -/

structure DepGraph where
  nodes : List String := []
  edges : List (String × String) := []
deriving DecidableEq

/-- `get_dependencies`: successors, empty for a null graph or absent node. -/
def getDependencies (g : Option DepGraph) (f : String) : List String :=
  match g with
  | none => []
  | some gr =>
    if f ∈ gr.nodes then (gr.edges.filter (fun e => e.1 == f)).map (fun e => e.2)
    else []

/-- `get_dependents`: predecessors, empty for a null graph or absent node. -/
def getDependents (g : Option DepGraph) (f : String) : List String :=
  match g with
  | none => []
  | some gr =>
    if f ∈ gr.nodes then (gr.edges.filter (fun e => e.2 == f)).map (fun e => e.1)
    else []

/-- `set.add` on the insertion-ordered set model. -/
def setInsert (s : List String) (x : String) : List String :=
  if x ∈ s then s else s ++ [x]

/-- `set.update` / union. -/
def setUnion (s t : List String) : List String := t.foldl setInsert s

/-- set difference. -/
def setDiff (s t : List String) : List String := s.filter (fun x => x ∉ t)

/-- The `for _ in range(depth)` loop of `get_related_files`.  Note the
source updates `related` with `next_level` BEFORE computing
`current_level = next_level - related`, so `current_level` is empty from
the second iteration on; the model reproduces this faithfully. -/
def relatedLoop (g : Option DepGraph) : ℕ → List String → List String → List String
  | 0, related, _ => related
  | Nat.succ d, related, current =>
    let next_level := current.foldl
      (fun acc f => setUnion (setUnion acc (getDependencies g f)) (getDependents g f)) []
    let related2 := setUnion related next_level
    relatedLoop g d related2 (setDiff next_level related2)

/-- `get_related_files`. -/
def getRelatedFiles (g : Option DepGraph) (f : String) (depth : ℕ) : List String :=
  match g with
  | none => []
  | some gr =>
    if f ∈ gr.nodes then (relatedLoop g depth [] [f]).filter (fun x => x != f)
    else []

/-! ### `HybridRetriever` state, dependency expansion and `search`
(hybrid_retriever.py lines 64-211).  The ChromaDB-backed dense stage is an
external collaborator; its ranked result list enters `hybridSearch` through
the parameter `denseFn` (the value of `self.vector_store.search(query,
fetch_k, filter_dict)`).  The `use_hybrid=False` branch, which merely
forwards to the external store, is outside the model. -/

structure HybridState where
  chunks : List CodeChunk := []
  file_to_chunks : List (String × List String) := []
  hasBuilder : Bool := false
  graph : Option DepGraph := none
deriving DecidableEq

def lookupStr (d : List (String × List String)) (key : String) : Option (List String) :=
  (d.find? (fun p => p.1 == key)).map (fun p => p.2)

/-- The result record appended for a dependency-sourced chunk:
fixed score `0.1` and a `from_dependency` tag. -/
def depResult (c : CodeChunk) : SearchResult :=
  { chunk_id := c.chunk_id, content := c.content,
    metadata := { file_path := c.file_path, chunk_type := c.chunk_type,
                  name := c.name, start_line := c.start_line, end_line := c.end_line,
                  language := c.language, from_dependency := true },
    score := some (1/10), from_dependency := true }

/-- Innermost body of the expansion loop: skip ids already present,
linear-scan `self._chunks` for the chunk, append it tagged. -/
def depAppendChunk (st : HybridState) (acc : List SearchResult × List String)
    (cid : String) : List SearchResult × List String :=
  if cid ∈ acc.2 then acc
  else
    match st.chunks.find? (fun c => c.chunk_id == cid) with
    | some c => (acc.1 ++ [depResult c], acc.2 ++ [cid])
    | none => acc

/-- Per-related-file body: at most 2 chunk ids of the file are considered. -/
def depAppendFile (st : HybridState) (acc : List SearchResult × List String)
    (f : String) : List SearchResult × List String :=
  match lookupStr st.file_to_chunks f with
  | some cids => (cids.take 2).foldl (depAppendChunk st) acc
  | none => acc

/-- `HybridRetriever._expand_with_dependencies` (the `top_k` parameter is
accepted and ignored, as in the source). -/
def expandWithDependencies (st : HybridState) (results : List SearchResult)
    (_top_k : ℕ) : List SearchResult :=
  if results.isEmpty || !st.hasBuilder then results
  else
    let top_files := (((results.take 5).map (fun r => r.metadata.file_path)).filter
      (fun f => f != "")).foldl setInsert []
    if top_files.isEmpty then results
    else
      let related_files := top_files.foldl
        (fun acc f => setUnion acc (getRelatedFiles st.graph f 1)) []
      let existing_files := (results.map (fun r => r.metadata.file_path)).foldl setInsert []
      let new_files := setDiff related_files existing_files
      let existing_ids := results.map (fun r => r.chunk_id)
      ((new_files.take 3).foldl (depAppendFile st) (results, existing_ids)).1

/-- `HybridRetriever.search` on the hybrid path (`use_hybrid=True`). -/
def hybridSearch (denseFn : ℕ → List SearchResult)
    (getScores : List (List String) → List String → List ℚ)
    (st : HybridState) (bst : BM25State)
    (query : String) (top_k : ℕ) (use_dependencies : Bool) : List SearchResult :=
  let fetch_k := top_k * 3
  let dense_results := denseFn fetch_k
  let bm25_results := bm25Search getScores bst query fetch_k
  if dense_results.isEmpty && bm25_results.isEmpty then []
  else
    let combined := reciprocalRankFusion dense_weight bm25_weight
      dense_results bm25_results k_rrf
    let combined2 :=
      if use_dependencies && st.hasBuilder && !combined.isEmpty then
        expandWithDependencies st combined top_k
      else combined
    combined2.take top_k

/-! ### Rerankers (reranker.py)

Both rerankers mutate the result dicts of their input list in place and
return a sorted (optionally truncated) list of references to those same
dicts.  The heap is modelled explicitly: a reranker returns the final state
of the input list (position = dict identity) together with the list of
positions that make up the returned list. -/

/-- Python whitespace characters recognised by `str.split()` (ASCII). -/
def isSpaceC (c : Char) : Bool :=
  c == ' ' || c == '\t' || c == '\n' || c == '\r' || c == Char.ofNat 11 || c == Char.ofNat 12

/-- `str.split()` splitting into maximal non-whitespace runs;
`cur` is the run collected so far, in reverse. -/
def pySplitAux : List Char → List Char → List (List Char)
  | cur, [] => if cur.isEmpty then [] else [cur.reverse]
  | cur, c :: cs =>
    if isSpaceC c then
      if cur.isEmpty then pySplitAux [] cs else cur.reverse :: pySplitAux [] cs
    else pySplitAux (c :: cur) cs

/-- Python `needle in hay` substring containment on character lists. -/
def strIn (needle : List Char) : List Char → Bool
  | [] => needle.isEmpty
  | c :: t => needle.isPrefixOf (c :: t) || strIn needle t

/-- Truthiness of the Python `if top_k:` guard (`None` and `0` are falsy). -/
def pyTruthy (top_k : Option ℕ) : Bool :=
  match top_k with
  | some k => k != 0
  | none => false

/-- The heuristic boost of `LightweightReranker.rerank` for one candidate:
+0.1 per distinct query term (length > 2) contained in the lowercase
content, +0.3 if the lowercased name occurs in the lowercase query,
+0.15 per distinct query term contained in the name, +0.1 for kind
"function", +0.05 for kind "class". -/
def lwBoost (query : String) (r : SearchResult) : ℚ :=
  let query_lower := query.data.map asciiLowerChar
  let query_terms := (pySplitAux [] query_lower).dedup
  let content_lower := r.content.data.map asciiLowerChar
  let contentB : ℚ :=
    ((query_terms.filter (fun t => 2 < t.length && strIn t content_lower)).length : ℚ)
      * (1/10)
  let nameB : ℚ :=
    if r.metadata.name = "" then 0
    else
      let name_lower := r.metadata.name.data.map asciiLowerChar
      (if strIn name_lower query_lower then (3/10 : ℚ) else 0)
        + ((query_terms.filter (fun t => strIn t name_lower)).length : ℚ) * (3/20)
  let typeB : ℚ :=
    if r.metadata.chunk_type = "function" then 1/10
    else if r.metadata.chunk_type = "class" then 1/20 else 0
  contentB + nameB + typeB

/-- First loop of `LightweightReranker.rerank`: write `rerank_score` and
`original_score` into the dict. -/
def lwAnnotate (query : String) (r : SearchResult) : SearchResult :=
  let original_score := r.score.getD 0
  { r with rerank_score := some (original_score + lwBoost query r),
           original_score := some original_score }

/-- Shared skeleton of both `rerank` methods: annotate every input dict in
place, stable-sort the dict references by the annotation's key descending,
truncate when `top_k` is truthy, then overwrite `score` on exactly the
returned dicts.  Returns (final state of the input dicts, positions of the
returned dicts in sorted order). -/
def rerankCore (annot : SearchResult → SearchResult) (keyf : SearchResult → ℚ)
    (upd : SearchResult → SearchResult) (results : List SearchResult)
    (top_k : Option ℕ) : List SearchResult × List ℕ :=
  if results.isEmpty then ([], [])
  else
    let annotated := results.map annot
    let sortedIdx := pySortDesc
      (fun i => ((annotated.get? i).map keyf).getD 0)
      (List.range annotated.length)
    let kept := if pyTruthy top_k then sortedIdx.take (top_k.getD 0) else sortedIdx
    let final := annotated.enum.map (fun p => if p.1 ∈ kept then upd p.2 else p.2)
    (final, kept)

/-- `LightweightReranker.rerank`: sort key `x.get("rerank_score", 0)`,
final write `result["score"] = result.get("rerank_score", 0)`. -/
def lwRerank (query : String) (results : List SearchResult) (top_k : Option ℕ) :
    List SearchResult × List ℕ :=
  rerankCore (lwAnnotate query) (fun r => r.rerank_score.getD 0)
    (fun r => { r with score := some (r.rerank_score.getD 0) }) results top_k

/-- The list object `LightweightReranker.rerank` returns. -/
def lwOutput (query : String) (results : List SearchResult) (top_k : Option ℕ) :
    List SearchResult :=
  ((lwRerank query results top_k).2).filterMap
    (fun i => (lwRerank query results top_k).1.get? i)

/-- `content[:512]` truncation of `CrossEncoderReranker.rerank`. -/
def ceTruncContent (s : String) : String :=
  if 512 < s.data.length then String.mk (s.data.take 512) else s

/-- First loop of `CrossEncoderReranker.rerank`; `predict` is the opaque
cross-encoder model applied to one (query, truncated content) pair. -/
def ceAnnotate (predict : String → String → ℚ) (query : String) (r : SearchResult) :
    SearchResult :=
  { r with cross_encoder_score := some (predict query (ceTruncContent r.content)),
           original_score := some (r.score.getD 0) }

/-- `CrossEncoderReranker.rerank`: sort key `x["cross_encoder_score"]`,
final write `result["score"] = result["cross_encoder_score"]`. -/
def ceRerank (predict : String → String → ℚ) (query : String)
    (results : List SearchResult) (top_k : Option ℕ) :
    List SearchResult × List ℕ :=
  rerankCore (ceAnnotate predict query) (fun r => r.cross_encoder_score.getD 0)
    (fun r => { r with score := r.cross_encoder_score }) results top_k

/-- The list object `CrossEncoderReranker.rerank` returns. -/
def ceOutput (predict : String → String → ℚ) (query : String)
    (results : List SearchResult) (top_k : Option ℕ) : List SearchResult :=
  ((ceRerank predict query results top_k).2).filterMap
    (fun i => (ceRerank predict query results top_k).1.get? i)

/-! ### Concrete sample data used by witnesses and counterexamples -/

def sampleA : SearchResult :=
  { chunk_id := "a", content := "alpha beta", score := some 1,
    metadata := { file_path := "a.py", chunk_type := "function", name := "alpha" } }

def sampleB : SearchResult :=
  { chunk_id := "b", content := "beta gamma", score := some (1/2),
    metadata := { file_path := "a.py", chunk_type := "class", name := "Beta" } }

/-- Candidate pair differing only in declared name (and identity). -/
def cand9A : SearchResult :=
  { chunk_id := "x1", content := "def something(): pass",
    metadata := { file_path := "m.py", chunk_type := "function", name := "Alpha" },
    score := some 1 }

def cand9B : SearchResult :=
  { chunk_id := "x2", content := "def something(): pass",
    metadata := { file_path := "m.py", chunk_type := "function", name := "zzz" },
    score := some 1 }

/-- Scenario of the dependency-expansion property: `a.py` imports `b.py`,
`b.py` imports `c.py`. -/
def scenarioGraph : DepGraph :=
  { nodes := ["a.py", "b.py", "c.py"],
    edges := [("a.py", "b.py"), ("b.py", "c.py")] }

def chunkA1 : CodeChunk :=
  { content := "def alpha(): return 1", chunk_id := "a1", file_path := "a.py",
    start_line := 1, end_line := 1, chunk_type := "function", name := "alpha" }

def chunkA2 : CodeChunk :=
  { content := "def alpha2(): return 2", chunk_id := "a2", file_path := "a.py",
    start_line := 3, end_line := 3, chunk_type := "function", name := "alpha2" }

def chunkB1 : CodeChunk :=
  { content := "def beta(): return 3", chunk_id := "b1", file_path := "b.py",
    start_line := 1, end_line := 1, chunk_type := "function", name := "beta" }

def chunkC1 : CodeChunk :=
  { content := "def gamma(): return 4", chunk_id := "c1", file_path := "c.py",
    start_line := 1, end_line := 1, chunk_type := "function", name := "gamma" }

/-- An organic (dense-stage) result living in `a.py`. -/
def organicA : SearchResult :=
  { chunk_id := "a1", content := "def alpha(): return 1",
    metadata := { file_path := "a.py", chunk_type := "function", name := "alpha" },
    score := some (7/610) }

def scenarioState : HybridState :=
  { chunks := [chunkA1, chunkA2, chunkB1, chunkC1],
    file_to_chunks := [("a.py", ["a1", "a2"]), ("b.py", ["b1"]), ("c.py", ["c1"])],
    hasBuilder := true, graph := some scenarioGraph }

theorem pySortDesc_sorted {α : Type} (key : α → ℚ) (l : List α) :
    (pySortDesc key l).Sorted (fun a b => key b ≤ key a) := by
  letI : IsTotal α (fun a b => key b ≤ key a) := ⟨fun a b => le_total (key b) (key a)⟩
  letI : IsTrans α (fun a b => key b ≤ key a) := ⟨fun a b c h1 h2 => le_trans h2 h1⟩
  exact List.sorted_insertionSort _ l

theorem pySortDesc_perm {α : Type} (key : α → ℚ) (l : List α) :
    (pySortDesc key l).Perm l :=
  List.perm_insertionSort _ l

theorem filter_orderedInsert {α : Type} (r : α → α → Prop) [DecidableRel r]
    (p : α → Bool) (hp : ∀ x y, p x = true → p y = true → r x y)
    (a : α) (l : List α) :
    (l.orderedInsert r a).filter p =
      if p a then a :: l.filter p else l.filter p := by
  induction l with
  | nil => simp [List.orderedInsert, List.filter_cons]
  | cons b t ih =>
    by_cases hr : r a b
    · simp [List.orderedInsert, hr, List.filter_cons]
    · have hnot : ¬(p a = true ∧ p b = true) := fun ⟨ha, hb⟩ => hr (hp a b ha hb)
      simp only [List.orderedInsert, if_neg hr, List.filter_cons, ih]
      by_cases ha : p a = true
      · have hb : ¬ p b = true := fun hb => hnot ⟨ha, hb⟩
        simp [ha, hb]
      · simp [ha]

theorem filter_insertionSort {α : Type} (r : α → α → Prop) [DecidableRel r]
    (p : α → Bool) (hp : ∀ x y, p x = true → p y = true → r x y)
    (l : List α) :
    (l.insertionSort r).filter p = l.filter p := by
  induction l with
  | nil => rfl
  | cons a t ih =>
    rw [List.insertionSort, filter_orderedInsert r p hp, ih, List.filter_cons]

/-- Stability of the modelled Python sort: within each key level, the sorted
list lists elements in their original order. -/
theorem pySortDesc_stable {α : Type} (key : α → ℚ) (l : List α) (q : ℚ) :
    (pySortDesc key l).filter (fun x => decide (key x = q)) =
      l.filter (fun x => decide (key x = q)) := by
  refine filter_insertionSort _ _ (fun x y hx hy => ?_) l
  have hx' : key x = q := of_decide_eq_true hx
  have hy' : key y = q := of_decide_eq_true hy
  rw [hx', hy']

theorem snd_mem_enumFrom {α : Type} :
    ∀ {l : List α} {n : ℕ} {p : ℕ × α}, p ∈ l.enumFrom n → p.2 ∈ l := by
  intro l
  induction l with
  | nil => intro n p h; simp [List.enumFrom] at h
  | cons a t ih =>
    intro n p h
    rw [List.enumFrom_cons] at h
    rcases List.mem_cons.mp h with h | h
    · subst h; exact List.mem_cons_self _ _
    · exact List.mem_cons_of_mem _ (ih h)

theorem fst_ge_of_mem_enumFrom {α : Type} :
    ∀ {l : List α} {n : ℕ} {p : ℕ × α}, p ∈ l.enumFrom n → n ≤ p.1 := by
  intro l
  induction l with
  | nil => intro n p h; simp [List.enumFrom] at h
  | cons a t ih =>
    intro n p h
    rw [List.enumFrom_cons] at h
    rcases List.mem_cons.mp h with h | h
    · subst h; exact le_refl _
    · exact le_trans (Nat.le_succ n) (ih h)

theorem dictSet_fresh (d : List FusionEntry) (e : FusionEntry)
    (h : ∀ x ∈ d, x.chunk_id ≠ e.chunk_id) : dictSet d e = d ++ [e] := by
  unfold dictSet
  rw [if_neg]
  intro hany
  rcases List.any_eq_true.mp hany with ⟨x, hx, hxe⟩
  exact h x hx (by simpa using hxe)

/-- The loop over `dense_results` with pairwise-distinct chunk ids just
lays the entries out in order. -/
theorem foldl_dictSet_eq (dw : ℚ) (k : ℕ) :
    ∀ (l : List SearchResult) (n : ℕ) (acc : List FusionEntry),
    (∀ r ∈ l, ∀ e ∈ acc, e.chunk_id ≠ r.chunk_id) →
    (l.map (fun r => r.chunk_id)).Nodup →
    (l.enumFrom n).foldl (fun d p => dictSet d (denseEntry dw k p.1 p.2)) acc
      = acc ++ (l.enumFrom n).map (fun p => denseEntry dw k p.1 p.2) := by
  intro l
  induction l with
  | nil => intro n acc _ _; simp [List.enumFrom]
  | cons r t ih =>
    intro n acc hfresh hnd
    rw [List.enumFrom_cons]
    simp only [List.foldl_cons, List.map_cons]
    have hstep : dictSet acc (denseEntry dw k n r) = acc ++ [denseEntry dw k n r] :=
      dictSet_fresh _ _ (fun x hx => hfresh r (List.mem_cons_self _ _) x hx)
    rw [hstep]
    have hnd' := hnd
    simp only [List.map_cons, List.nodup_cons] at hnd'
    have hfresh' : ∀ r' ∈ t, ∀ e ∈ acc ++ [denseEntry dw k n r],
        e.chunk_id ≠ r'.chunk_id := by
      intro r' hr' e he
      rcases List.mem_append.mp he with he | he
      · exact hfresh r' (List.mem_cons_of_mem _ hr') e he
      · have : e = denseEntry dw k n r := by simpa using he
        subst this
        show r.chunk_id ≠ r'.chunk_id
        intro hc
        exact hnd'.1 (hc ▸ List.mem_map_of_mem (fun x => x.chunk_id) hr')
    rw [ih (n + 1) _ hfresh' hnd'.2, List.append_assoc]
    rfl

theorem find?_map_id_preserved (f : FusionEntry → FusionEntry)
    (hf : ∀ x, (f x).chunk_id = x.chunk_id) (id : String) (d : List FusionEntry) :
    (d.map f).find? (fun e => e.chunk_id == id)
      = ((d.find? (fun e => e.chunk_id == id)).map f) := by
  rw [List.find?_map]
  have : ((fun e : FusionEntry => e.chunk_id == id) ∘ f)
      = (fun e : FusionEntry => e.chunk_id == id) := by
    funext x
    simp [Function.comp, hf x]
  rw [this]

/-- Key-wise behaviour of one step of the `bm25_results` loop. -/
theorem keyScore_bm25Step (bw : ℚ) (k : ℕ) (d : List FusionEntry) (rank : ℕ)
    (r : SearchResult) (id : String) :
    keyScore (bm25Step bw k d rank r) id =
      if r.chunk_id = id then
        some ((keyScore d id).getD 0 + bw / ((k : ℚ) + (rank : ℚ) + 1))
      else keyScore d id := by
  unfold bm25Step keyScore
  by_cases hany : d.any (fun x => x.chunk_id == r.chunk_id) = true
  · simp only [hany, if_true]
    have hf : ∀ x : FusionEntry,
        ((if x.chunk_id == r.chunk_id then bm25UpdateEntry bw k rank r x else x) :
          FusionEntry).chunk_id = x.chunk_id := by
      intro x
      by_cases h : (x.chunk_id == r.chunk_id) = true <;> simp [h, bm25UpdateEntry]
    rw [find?_map_id_preserved _ hf]
    by_cases hid : r.chunk_id = id
    · subst hid
      have hsome : (d.find? (fun e => e.chunk_id == r.chunk_id)).isSome = true := by
        rcases List.any_eq_true.mp hany with ⟨x, hx, hxe⟩
        exact List.find?_isSome.mpr ⟨x, hx, hxe⟩
      obtain ⟨y₀, hy₀⟩ := Option.isSome_iff_exists.mp hsome
      have hpy₀ : (y₀.chunk_id == r.chunk_id) = true :=
        @List.find?_some _ (fun e => e.chunk_id == r.chunk_id) y₀ d hy₀
      rw [hy₀]
      simp only [if_pos rfl, Option.map_some, Option.getD_some, hpy₀, if_true]
      have hy₀id : y₀.chunk_id = r.chunk_id := by simpa using hpy₀
      simp [bm25UpdateEntry, hy₀id]
    · rw [if_neg hid]
      cases hfind : d.find? (fun e => e.chunk_id == id) with
      | none => simp
      | some x₀ =>
        have hx₀id : x₀.chunk_id = id := by
          simpa using @List.find?_some _ (fun e => e.chunk_id == id) x₀ d hfind
        have hne : x₀.chunk_id ≠ r.chunk_id := by
          intro hc
          exact hid (hc ▸ hx₀id.symm).symm
        simp [hne]
  · simp only [hany, if_false, Bool.false_eq_true]
    rw [List.find?_append]
    by_cases hid : r.chunk_id = id
    · subst hid
      have h1 : d.find? (fun e => e.chunk_id == r.chunk_id) = none := by
        rw [List.find?_eq_none]
        intro x hx hpx
        exact hany (List.any_eq_true.mpr ⟨x, hx, hpx⟩)
      rw [if_pos rfl, h1]
      simp [bm25NewEntry]
    · have h2 : List.find? (fun e => e.chunk_id == id) [bm25NewEntry bw k rank r]
          = none := by
        rw [List.find?_eq_none]
        intro x hx hpx
        have hxid : x.chunk_id = id := by simpa using hpx
        have hxr : x = bm25NewEntry bw k rank r := by simpa using hx
        exact hid (by rw [← hxid, hxr]; rfl)
      rw [if_neg hid, h2, Option.or_none]

/-- Key-wise score after the whole `bm25_results` loop (duplicate-free ids). -/
theorem keyScore_bm25Fold (bw : ℚ) (k : ℕ) :
    ∀ (l : List SearchResult) (n : ℕ) (acc : List FusionEntry),
    (l.map (fun r => r.chunk_id)).Nodup →
    ∀ id, keyScore ((l.enumFrom n).foldl (fun d p => bm25Step bw k d p.1 p.2) acc) id =
      match (l.enumFrom n).find? (fun p => p.2.chunk_id == id) with
      | some p => some ((keyScore acc id).getD 0 + bw / ((k : ℚ) + (p.1 : ℚ) + 1))
      | none => keyScore acc id := by
  intro l
  induction l with
  | nil => intro n acc _ id; simp [List.enumFrom]
  | cons r t ih =>
    intro n acc hnd id
    rw [List.enumFrom_cons]
    simp only [List.foldl_cons, List.find?_cons]
    have hnd' := hnd
    simp only [List.map_cons, List.nodup_cons] at hnd'
    by_cases hid : r.chunk_id = id
    · have hpred : ((fun p : ℕ × SearchResult => p.2.chunk_id == id) (n, r)) = true := by
        simpa using hid
      rw [ih (n + 1) _ hnd'.2 id]
      have hnone : (t.enumFrom (n + 1)).find? (fun p => p.2.chunk_id == id) = none := by
        rw [List.find?_eq_none]
        intro p hp hpp
        have : p.2.chunk_id = id := by simpa using hpp
        exact hnd'.1 (by
          rw [← hid] at this
          exact this ▸ List.mem_map_of_mem (fun x => x.chunk_id) (snd_mem_enumFrom hp))
      rw [hnone]
      simp only [hpred]
      rw [keyScore_bm25Step]
      rw [if_pos hid]
    · have hbeq : (r.chunk_id == id) = false := by simpa using hid
      simp only [hbeq]
      rw [ih (n + 1) _ hnd'.2 id]
      have hacc : keyScore (bm25Step bw k acc n r) id = keyScore acc id := by
        rw [keyScore_bm25Step, if_neg hid]
      rw [hacc]

theorem keysOf_append (d₁ d₂ : List FusionEntry) :
    keysOf (d₁ ++ d₂) = keysOf d₁ ++ keysOf d₂ := List.map_append _ _ _

theorem mem_keysOf {d : List FusionEntry} {id : String} :
    id ∈ keysOf d ↔ ∃ e ∈ d, e.chunk_id = id := by
  unfold keysOf
  constructor
  · intro h
    rcases List.mem_map.mp h with ⟨e, he, hid⟩
    exact ⟨e, he, hid⟩
  · rintro ⟨e, he, hid⟩
    exact List.mem_map.mpr ⟨e, he, hid⟩

/-- Keys after one `bm25_results` loop step. -/
theorem keysOf_bm25Step (bw : ℚ) (k : ℕ) (d : List FusionEntry) (rank : ℕ)
    (r : SearchResult) :
    keysOf (bm25Step bw k d rank r) =
      if d.any (fun x => x.chunk_id == r.chunk_id) then keysOf d
      else keysOf d ++ [r.chunk_id] := by
  unfold bm25Step
  by_cases hany : d.any (fun x => x.chunk_id == r.chunk_id) = true
  · simp only [hany, if_true]
    unfold keysOf
    rw [List.map_map]
    congr 1
    funext x
    by_cases h : x.chunk_id = r.chunk_id <;> simp [h, bm25UpdateEntry]
  · simp only [hany, if_false, Bool.false_eq_true]
    rw [keysOf_append]
    rfl

theorem mem_keys_bm25Fold (bw : ℚ) (k : ℕ) :
    ∀ (l : List SearchResult) (n : ℕ) (acc : List FusionEntry) (id : String),
    id ∈ keysOf ((l.enumFrom n).foldl (fun d p => bm25Step bw k d p.1 p.2) acc) ↔
      id ∈ keysOf acc ∨ ∃ r ∈ l, r.chunk_id = id := by
  intro l
  induction l with
  | nil => intro n acc id; simp [List.enumFrom]
  | cons r t ih =>
    intro n acc id
    rw [List.enumFrom_cons]
    simp only [List.foldl_cons]
    rw [ih (n + 1)]
    have hkeys := keysOf_bm25Step bw k acc n r
    by_cases hany : acc.any (fun x => x.chunk_id == r.chunk_id) = true
    · rw [if_pos hany] at hkeys
      rw [hkeys]
      have hr : r.chunk_id ∈ keysOf acc := by
        rcases List.any_eq_true.mp hany with ⟨x, hx, hxe⟩
        exact mem_keysOf.mpr ⟨x, hx, by simpa using hxe⟩
      constructor
      · rintro (h | h)
        · exact Or.inl h
        · rcases h with ⟨x, hx, hxi⟩
          exact Or.inr ⟨x, List.mem_cons_of_mem _ hx, hxi⟩
      · rintro (h | h)
        · exact Or.inl h
        · rcases h with ⟨x, hx, hxi⟩
          rcases List.mem_cons.mp hx with hx | hx
          · subst hx; exact Or.inl (hxi ▸ hr)
          · exact Or.inr ⟨x, hx, hxi⟩
    · rw [if_neg hany] at hkeys
      rw [hkeys]
      simp only [List.mem_append, List.mem_singleton]
      constructor
      · rintro ((h | h) | h)
        · exact Or.inl h
        · exact Or.inr ⟨r, List.mem_cons_self _ _, h.symm⟩
        · rcases h with ⟨x, hx, hxi⟩
          exact Or.inr ⟨x, List.mem_cons_of_mem _ hx, hxi⟩
      · rintro (h | h)
        · exact Or.inl (Or.inl h)
        · rcases h with ⟨x, hx, hxi⟩
          rcases List.mem_cons.mp hx with hx | hx
          · subst hx; exact Or.inl (Or.inr hxi.symm)
          · exact Or.inr ⟨x, hx, hxi⟩

theorem nodup_keys_bm25Step (bw : ℚ) (k : ℕ) (d : List FusionEntry) (rank : ℕ)
    (r : SearchResult) (hd : (keysOf d).Nodup) :
    (keysOf (bm25Step bw k d rank r)).Nodup := by
  rw [keysOf_bm25Step]
  by_cases hany : d.any (fun x => x.chunk_id == r.chunk_id) = true
  · rwa [if_pos hany]
  · rw [if_neg hany]
    have hnotin : r.chunk_id ∉ keysOf d := by
      intro hmem
      rcases mem_keysOf.mp hmem with ⟨x, hx, hxi⟩
      exact hany (List.any_eq_true.mpr ⟨x, hx, by simpa using hxi⟩)
    simp [List.nodup_append, hd, hnotin]

theorem nodup_keys_bm25Fold (bw : ℚ) (k : ℕ) :
    ∀ (l : List SearchResult) (n : ℕ) (acc : List FusionEntry),
    (keysOf acc).Nodup →
    (keysOf ((l.enumFrom n).foldl (fun d p => bm25Step bw k d p.1 p.2) acc)).Nodup := by
  intro l
  induction l with
  | nil => intro n acc h; simpa [List.enumFrom] using h
  | cons r t ih =>
    intro n acc h
    rw [List.enumFrom_cons]
    simp only [List.foldl_cons]
    exact ih (n + 1) _ (nodup_keys_bm25Step bw k acc n r h)

/-- In a dict with duplicate-free keys, looking up a member's key finds it. -/
theorem find?_eq_self_of_nodup :
    ∀ (d : List FusionEntry), (keysOf d).Nodup →
    ∀ e ∈ d, d.find? (fun x => x.chunk_id == e.chunk_id) = some e := by
  intro d
  induction d with
  | nil => intro _ e he; simp at he
  | cons x t ih =>
    intro hnd e he
    have hnd' := hnd
    unfold keysOf at hnd'
    simp only [List.map_cons, List.nodup_cons] at hnd'
    rcases List.mem_cons.mp he with he | he
    · subst he
      rw [List.find?_cons]
      simp
    · rw [List.find?_cons]
      have hne : ¬(x.chunk_id == e.chunk_id) = true := by
        simp only [beq_iff_eq]
        intro hc
        exact hnd'.1 (hc ▸ List.mem_map_of_mem (fun y => y.chunk_id) he)
      simp only [hne]
      exact ih hnd'.2 e he

theorem keyScore_bm25Fold_found (bw : ℚ) (k : ℕ) (l : List SearchResult) (n : ℕ)
    (acc : List FusionEntry) (hnd : (l.map (fun r => r.chunk_id)).Nodup)
    (id : String) (p : ℕ × SearchResult)
    (hfb : (l.enumFrom n).find? (fun p => p.2.chunk_id == id) = some p) :
    keyScore ((l.enumFrom n).foldl (fun d p => bm25Step bw k d p.1 p.2) acc) id =
      some ((keyScore acc id).getD 0 + bw / ((k : ℚ) + (p.1 : ℚ) + 1)) := by
  have h := keyScore_bm25Fold bw k l n acc hnd id
  rw [hfb] at h
  exact h

theorem keyScore_bm25Fold_not (bw : ℚ) (k : ℕ) (l : List SearchResult) (n : ℕ)
    (acc : List FusionEntry) (hnd : (l.map (fun r => r.chunk_id)).Nodup)
    (id : String)
    (hfb : (l.enumFrom n).find? (fun p => p.2.chunk_id == id) = none) :
    keyScore ((l.enumFrom n).foldl (fun d p => bm25Step bw k d p.1 p.2) acc) id =
      keyScore acc id := by
  have h := keyScore_bm25Fold bw k l n acc hnd id
  rw [hfb] at h
  exact h

theorem keyScore_denseMap (dw : ℚ) (k : ℕ) (l : List SearchResult) (id : String) :
    keyScore (l.enum.map (fun p => denseEntry dw k p.1 p.2)) id =
      (l.enum.find? (fun p => p.2.chunk_id == id)).map
        (fun p => dw / ((k : ℚ) + (p.1 : ℚ) + 1)) := by
  unfold keyScore
  rw [List.find?_map]
  have hc : ((fun e : FusionEntry => e.chunk_id == id)
        ∘ (fun p : ℕ × SearchResult => denseEntry dw k p.1 p.2))
      = (fun p : ℕ × SearchResult => p.2.chunk_id == id) := by
    funext p
    rfl
  rw [hc, Option.map_map]
  rfl

theorem keysOf_denseMap (dw : ℚ) (k : ℕ) (l : List SearchResult) :
    keysOf (l.enum.map (fun p => denseEntry dw k p.1 p.2))
      = l.map (fun r => r.chunk_id) := by
  unfold keysOf
  rw [List.map_map]
  have hc : ((fun e : FusionEntry => e.chunk_id)
        ∘ (fun p : ℕ × SearchResult => denseEntry dw k p.1 p.2))
      = ((fun r : SearchResult => r.chunk_id) ∘ Prod.snd) := by
    funext p
    rfl
  rw [hc, ← List.map_map, List.enum_map_snd]

theorem rankContrib_eq_getD (w : ℚ) (k : ℕ) (l : List SearchResult) (id : String) :
    rankContrib w k l id = ((l.enum.find? (fun p => p.2.chunk_id == id)).map
      (fun p => w / ((k : ℚ) + (p.1 : ℚ) + 1))).getD 0 := by
  unfold rankContrib
  cases l.enum.find? (fun p => p.2.chunk_id == id) <;> rfl

/-- The dense loop starting from the empty dict lays entries out in order. -/
theorem afterDense_eq (dw : ℚ) (k : ℕ) (dense : List SearchResult)
    (hd : (dense.map (fun r => r.chunk_id)).Nodup) :
    dense.enum.foldl (fun d p => dictSet d (denseEntry dw k p.1 p.2)) []
      = dense.enum.map (fun p => denseEntry dw k p.1 p.2) := by
  have h0 : dense.enum = dense.enumFrom 0 := rfl
  rw [h0]
  have h := foldl_dictSet_eq dw k dense 0 []
    (fun r _ e he => absurd he (List.not_mem_nil e)) hd
  simpa using h

/-- Every entry of the fusion dict carries exactly the sum of its two
reciprocal-rank contributions (for duplicate-free stage ids). -/
theorem fusionDict_score (dw bw : ℚ) (k : ℕ) (dense bm : List SearchResult)
    (hd : (dense.map (fun r => r.chunk_id)).Nodup)
    (hb : (bm.map (fun r => r.chunk_id)).Nodup) :
    ∀ e ∈ fusionDict dw bw k dense bm,
      e.rrf_score = rankContrib dw k dense e.chunk_id
        + rankContrib bw k bm e.chunk_id := by
  intro e he
  unfold fusionDict at he
  rw [afterDense_eq dw k dense hd] at he
  have hADkeys := keysOf_denseMap dw k dense
  have hADnodup : (keysOf (dense.enum.map (fun p => denseEntry dw k p.1 p.2))).Nodup := by
    rw [hADkeys]; exact hd
  have hFnodup : (keysOf (bm.enum.foldl (fun d p => bm25Step bw k d p.1 p.2)
      (dense.enum.map (fun p => denseEntry dw k p.1 p.2)))).Nodup := by
    have hbe : bm.enum = bm.enumFrom 0 := rfl
    rw [hbe]
    exact nodup_keys_bm25Fold bw k bm 0 _ hADnodup
  have hfind := find?_eq_self_of_nodup _ hFnodup e he
  have hks : keyScore (bm.enum.foldl (fun d p => bm25Step bw k d p.1 p.2)
      (dense.enum.map (fun p => denseEntry dw k p.1 p.2))) e.chunk_id
      = some e.rrf_score := by
    unfold keyScore
    rw [hfind]
    rfl
  have hbe : bm.enum = bm.enumFrom 0 := rfl
  cases hfb : bm.enum.find? (fun p => p.2.chunk_id == e.chunk_id) with
  | some p =>
    have hchar := keyScore_bm25Fold_found bw k bm 0
      (dense.enum.map (fun p => denseEntry dw k p.1 p.2)) hb e.chunk_id p (hbe ▸ hfb)
    rw [hbe] at hks
    rw [hchar] at hks
    have hBside : rankContrib bw k bm e.chunk_id = bw / ((k : ℚ) + (p.1 : ℚ) + 1) := by
      unfold rankContrib
      rw [hfb]
    have hAside : rankContrib dw k dense e.chunk_id
        = (keyScore (dense.enum.map (fun q => denseEntry dw k q.1 q.2)) e.chunk_id).getD 0 := by
      rw [rankContrib_eq_getD, keyScore_denseMap]
    have := Option.some.inj hks
    rw [hBside, hAside, this]
  | none =>
    have hchar := keyScore_bm25Fold_not bw k bm 0
      (dense.enum.map (fun p => denseEntry dw k p.1 p.2)) hb e.chunk_id (hbe ▸ hfb)
    rw [hbe] at hks
    rw [hchar] at hks
    have hBside : rankContrib bw k bm e.chunk_id = 0 := by
      unfold rankContrib
      rw [hfb]
    rw [keyScore_denseMap] at hks
    cases hfd : dense.enum.find? (fun p => p.2.chunk_id == e.chunk_id) with
    | some q =>
      rw [hfd] at hks
      have hAside : rankContrib dw k dense e.chunk_id = dw / ((k : ℚ) + (q.1 : ℚ) + 1) := by
        unfold rankContrib
        rw [hfd]
      have := Option.some.inj hks
      rw [hBside, hAside, add_zero, ← this]
    | none =>
      rw [hfd] at hks
      exact absurd hks (by simp)

theorem mem_rrf_iff (dw bw : ℚ) (dense bm : List SearchResult) (k : ℕ)
    (r : SearchResult) :
    r ∈ reciprocalRankFusion dw bw dense bm k ↔
      ∃ e ∈ fusionDict dw bw k dense bm, fusionProj e = r := by
  unfold reciprocalRankFusion
  by_cases hemp : (fusionDict dw bw k dense bm).isEmpty = true
  · have hnil : fusionDict dw bw k dense bm = [] := by
      cases h : fusionDict dw bw k dense bm with
      | nil => rfl
      | cons a t => rw [h] at hemp; simp [List.isEmpty] at hemp
    simp [hemp, hnil]
  · simp only [hemp, if_false, Bool.false_eq_true, List.mem_map]
    constructor
    · rintro ⟨e, he, hpe⟩
      exact ⟨e, (pySortDesc_perm (fun x => x.rrf_score) _).mem_iff.mp he, hpe⟩
    · rintro ⟨e, he, hpe⟩
      exact ⟨e, (pySortDesc_perm (fun x => x.rrf_score) _).mem_iff.mpr he, hpe⟩

/-- Score characterisation carried to the fused output list. -/
theorem rrf_mem_score (dw bw : ℚ) (dense bm : List SearchResult) (k : ℕ)
    (hd : (dense.map (fun r => r.chunk_id)).Nodup)
    (hb : (bm.map (fun r => r.chunk_id)).Nodup) :
    ∀ r ∈ reciprocalRankFusion dw bw dense bm k,
      r.score = some (rankContrib dw k dense r.chunk_id
        + rankContrib bw k bm r.chunk_id) := by
  intro r hr
  rcases (mem_rrf_iff dw bw dense bm k r).mp hr with ⟨e, he, hpe⟩
  have hsc := fusionDict_score dw bw k dense bm hd hb e he
  rw [← hpe]
  show some e.rrf_score = _
  rw [hsc]
  rfl

/-- The fused list is sorted by `rrf_score` (= the `score` field) descending. -/
theorem rrf_sorted (dw bw : ℚ) (dense bm : List SearchResult) (k : ℕ) :
    sortedByScoreDesc (reciprocalRankFusion dw bw dense bm k) := by
  unfold reciprocalRankFusion sortedByScoreDesc
  by_cases hemp : (fusionDict dw bw k dense bm).isEmpty = true
  · simp [hemp]
  · simp only [hemp, if_false, Bool.false_eq_true]
    rw [List.pairwise_map]
    have hs := pySortDesc_sorted (fun e => e.rrf_score) (fusionDict dw bw k dense bm)
    exact hs.imp (fun h => h)

/-- The fused output has duplicate-free chunk ids: both contributions
accumulate "under that single identity". -/
theorem rrf_ids_nodup (dw bw : ℚ) (dense bm : List SearchResult) (k : ℕ)
    (hd : (dense.map (fun r => r.chunk_id)).Nodup) :
    ((reciprocalRankFusion dw bw dense bm k).map (fun r => r.chunk_id)).Nodup := by
  unfold reciprocalRankFusion
  by_cases hemp : (fusionDict dw bw k dense bm).isEmpty = true
  · simp [hemp]
  · simp only [hemp, if_false, Bool.false_eq_true]
    have hkeys : (keysOf (fusionDict dw bw k dense bm)).Nodup := by
      unfold fusionDict
      rw [afterDense_eq dw k dense hd]
      have hbe : bm.enum = bm.enumFrom 0 := rfl
      rw [hbe]
      refine nodup_keys_bm25Fold bw k bm 0 _ ?_
      rw [keysOf_denseMap dw k dense]
      exact hd
    have hperm : ((pySortDesc (fun e => e.rrf_score)
          (fusionDict dw bw k dense bm)).map (fun e => e.chunk_id)).Perm
        (keysOf (fusionDict dw bw k dense bm)) :=
      (pySortDesc_perm (fun e : FusionEntry => e.rrf_score)
        (fusionDict dw bw k dense bm)).map (fun e => e.chunk_id)
    have : ((pySortDesc (fun e => e.rrf_score)
        (fusionDict dw bw k dense bm)).map (fun e => e.chunk_id)).Nodup :=
      hperm.symm.nodup hkeys
    rw [List.map_map]
    exact this

/-- A chunk id occurs in the fused output iff it occurs in at least one
input stage list. -/
theorem rrf_mem_ids (dw bw : ℚ) (dense bm : List SearchResult) (k : ℕ)
    (hd : (dense.map (fun r => r.chunk_id)).Nodup) :
    ∀ id, (∃ r ∈ reciprocalRankFusion dw bw dense bm k, r.chunk_id = id) ↔
      (∃ r ∈ dense, r.chunk_id = id) ∨ (∃ r ∈ bm, r.chunk_id = id) := by
  intro id
  have hkeys : id ∈ keysOf (fusionDict dw bw k dense bm) ↔
      (∃ r ∈ dense, r.chunk_id = id) ∨ (∃ r ∈ bm, r.chunk_id = id) := by
    unfold fusionDict
    rw [afterDense_eq dw k dense hd]
    have hbe : bm.enum = bm.enumFrom 0 := rfl
    rw [hbe, mem_keys_bm25Fold bw k bm 0 _ id, keysOf_denseMap dw k dense]
    constructor
    · rintro (h | h)
      · rcases List.mem_map.mp h with ⟨x, hx, hxi⟩
        exact Or.inl ⟨x, hx, hxi⟩
      · exact Or.inr h
    · rintro (h | h)
      · rcases h with ⟨x, hx, hxi⟩
        exact Or.inl (List.mem_map.mpr ⟨x, hx, hxi⟩)
      · exact Or.inr h
  rw [← hkeys]
  constructor
  · rintro ⟨r, hr, hri⟩
    rcases (mem_rrf_iff dw bw dense bm k r).mp hr with ⟨e, he, hpe⟩
    have : e.chunk_id = id := by rw [← hri, ← hpe]; rfl
    exact mem_keysOf.mpr ⟨e, he, this⟩
  · intro h
    rcases mem_keysOf.mp h with ⟨e, he, hei⟩
    exact ⟨fusionProj e, (mem_rrf_iff dw bw dense bm k _).mpr ⟨e, he, rfl⟩, hei⟩

/-! ### Generic tokenizer facts -/

theorem tokenize_min_length (s : String) (t : String) (ht : t ∈ tokenize s) :
    1 < t.length := by
  unfold tokenize at ht
  by_cases hs : s = ""
  · rw [if_pos hs] at ht
    simp at ht
  · rw [if_neg hs] at ht
    simp only [List.mem_map] at ht
    obtain ⟨l, hl, hlt⟩ := ht
    have hp := List.of_mem_filter hl
    rw [← hlt]
    have : (String.mk l).length = l.length := rfl
    rw [this]
    simpa using hp

/-- C1: the spec claims `tokenize("getUserName")` and
`tokenize("get_user_name")` both yield `{"get","user","name"}`.  The code
lower-cases BEFORE the camelCase regex, so the regex `([a-z])([A-Z])` can
never match and `tokenize("getUserName") = ["getusername"]`, while the
underscore path does split.  The single-character-drop half of the claim
does hold.  This theorem evaluates the code at the failing input. -/
theorem C1_tokenize_camel_split_dead :
    tokenize "getUserName" = ["getusername"]
    ∧ tokenize "get_user_name" = ["get", "user", "name"]
    ∧ tokenize "getUserName" ≠ tokenize "get_user_name"
    ∧ ∀ s t, t ∈ tokenize s → 1 < t.length :=
  ⟨by decide, by decide, by decide, tokenize_min_length⟩

/-- Witness for the universally quantified half of C1's theorem, at the
concrete input "ab_c". -/
theorem C1_tokenize_camel_split_dead_witness :
    "ab" ∈ tokenize "ab_c" ∧ 1 < "ab".length :=
  ⟨by decide, C1_tokenize_camel_split_dead.2.2.2 "ab_c" "ab" (by decide)⟩

/-! ### C5: permanently empty index on empty build -/

theorem zip_map_self {α β : Type} (f : α → β) :
    ∀ l : List α, l.zip (l.map f) = l.map (fun a => (a, f a)) := by
  intro l
  induction l with
  | nil => rfl
  | cons a t ih => simp [ih]

/-- C5: building the lexical index on an empty chunk set, or on a chunk set
all of whose chunks tokenize to `[]`, leaves `bm25 = None`, and every
subsequent search returns `[]` for every query, `top_k` and scoring
backend, raising no error. -/
theorem C5_empty_build_permanently_empty
    (getScores : List (List String) → List String → List ℚ)
    (query : String) (top_k : ℕ) :
    bm25Search getScores (bm25IndexOn bm25InitState []) query top_k = []
    ∧ ∀ chunks : List CodeChunk, (∀ c ∈ chunks, tokenize c.content = []) →
        bm25Search getScores (bm25IndexOn bm25InitState chunks) query top_k = [] := by
  constructor
  · rfl
  · intro chunks hall
    unfold bm25IndexOn
    by_cases hc : chunks.isEmpty = true
    · rw [if_pos hc]
      rfl
    · rw [if_neg hc]
      have hvalid : (chunks.zip (chunks.map (fun c => tokenize c.content))).filter
          (fun p => !p.2.isEmpty) = [] := by
        rw [zip_map_self, List.filter_map]
        have hfil : chunks.filter ((fun p : CodeChunk × List String => !p.2.isEmpty)
            ∘ (fun a : CodeChunk => (a, tokenize a.content))) = [] := by
          rw [List.filter_eq_nil_iff]
          intro c hcm
          show ¬(!(tokenize c.content).isEmpty) = true
          rw [hall c hcm]
          simp
        rw [hfil]
        rfl
      simp only [hvalid, List.isEmpty_nil, if_true]
      rfl

/-- Witness for C5 at a concrete all-empty-token chunk set (a chunk whose
content is a single character tokenizes to `[]`). -/
theorem C5_empty_build_permanently_empty_witness :
    bm25Search (fun _ _ => [1]) (bm25IndexOn bm25InitState []) "alpha" 3 = []
    ∧ bm25Search (fun _ _ => [1])
        (bm25IndexOn bm25InitState [{ content := "x", chunk_id := "x1" }]) "alpha" 3 = [] :=
  ⟨(C5_empty_build_permanently_empty (fun _ _ => [1]) "alpha" 3).1,
   (C5_empty_build_permanently_empty (fun _ _ => [1]) "alpha" 3).2
     [{ content := "x", chunk_id := "x1" }] (by decide)⟩

/-! ### C8: lexical search empty-query safety and score positivity -/

/-- C8: on any retriever state and any scoring backend, a query that
tokenizes to `[]` returns `[]`, and every returned result has a strictly
positive score (zero-scored chunks are filtered out even when fewer than
`top_k` positive chunks exist). -/
theorem C8_bm25_empty_query_and_positivity
    (getScores : List (List String) → List String → List ℚ)
    (st : BM25State) (query : String) (top_k : ℕ) :
    (tokenize query = [] → bm25Search getScores st query top_k = [])
    ∧ ∀ r ∈ bm25Search getScores st query top_k,
        ∃ q : ℚ, r.score = some q ∧ 0 < q := by
  constructor
  · intro hq
    unfold bm25Search
    split
    · rfl
    · split
      · rfl
      · rw [if_pos (show (tokenize query).isEmpty = true by rw [hq]; rfl)]
  · intro r hr
    unfold bm25Search at hr
    split at hr
    · simp at hr
    · split at hr
      · simp at hr
      · dsimp only at hr
        split at hr
        · simp at hr
        · simp only [List.mem_filterMap] at hr
          obtain ⟨idx, _, hemit⟩ := hr
          split at hemit
          · rename_i corpus heq hc hq hpos
            cases hget : st.chunks.get? idx with
            | none => rw [hget] at hemit; simp at hemit
            | some c =>
              rw [hget] at hemit
              simp only [Option.map_some', Option.some.injEq] at hemit
              refine ⟨_, ?_, hpos⟩
              rw [← hemit]
          · cases hemit

/-- Witness for C8: an empty-tokenizing query ("_" has no alphanumeric run
of length > 1) on a built index, and a positively scored returned result. -/
theorem C8_bm25_empty_query_and_positivity_witness :
    bm25Search (fun _ _ => [5]) (bm25IndexOn bm25InitState [chunkA1]) "_" 10 = []
    ∧ ∃ q : ℚ, (SearchResult.score
        { chunk_id := "a1", content := chunkA1.content,
          metadata := { file_path := "a.py", chunk_type := "function", name := "alpha",
                        start_line := 1, end_line := 1, language := "python" },
          score := some 5 }) = some q ∧ 0 < q := by
  constructor
  · exact (C8_bm25_empty_query_and_positivity (fun _ _ => [5])
      (bm25IndexOn bm25InitState [chunkA1]) "_" 10).1 (by decide)
  · refine (C8_bm25_empty_query_and_positivity (fun _ _ => [5])
      (bm25IndexOn bm25InitState [chunkA1]) "alpha" 10).2 _ ?_
    show _ ∈ bm25Search (fun _ _ => [5]) (bm25IndexOn bm25InitState [chunkA1]) "alpha" 10
    have hsearch : bm25Search (fun _ _ => [5]) (bm25IndexOn bm25InitState [chunkA1]) "alpha" 10
        = [{ chunk_id := "a1", content := chunkA1.content,
             metadata := { file_path := "a.py", chunk_type := "function", name := "alpha",
                           start_line := 1, end_line := 1, language := "python" },
             score := some 5 }] := by
      rfl
    rw [hsearch]
    exact List.mem_singleton_self _

/-! ### C6: top_k bounds -/

theorem length_filterMap_take_le {α β : Type} (f : α → Option β) (l : List α) (k : ℕ) :
    ((l.take k).filterMap f).length ≤ k :=
  le_trans (List.length_filterMap_le _ _) (List.length_take_le _ _)

/-- C6 counterexample: `LightweightReranker.rerank` guards truncation with
`if top_k:`, and `0` is falsy in Python, so `top_k = 0` performs NO
truncation: on a one-element input the returned list has length 1 > 0. -/
theorem C6_top_k_zero_counterexample :
    (lwOutput "q" [sampleA] (some 0)).length = 1
    ∧ ¬((lwOutput "q" [sampleA] (some 0)).length ≤ 0) := by
  constructor
  · decide
  · decide

/-- C6 (amended): each search stage returns at most `top_k` results for
every `top_k` including 0; the rerankers respect `top_k` only for
`top_k ≥ 1`, because `if top_k:` treats 0 like `None` (no truncation). -/
theorem C6_top_k_respected_amended :
    (∀ (getScores : List (List String) → List String → List ℚ) (st : BM25State)
        (query : String) (top_k : ℕ),
        (bm25Search getScores st query top_k).length ≤ top_k)
    ∧ (∀ (denseFn : ℕ → List SearchResult)
        (getScores : List (List String) → List String → List ℚ)
        (st : HybridState) (bst : BM25State) (query : String) (top_k : ℕ)
        (use_dependencies : Bool),
        (hybridSearch denseFn getScores st bst query top_k use_dependencies).length ≤ top_k)
    ∧ (∀ (query : String) (results : List SearchResult) (k : ℕ), 1 ≤ k →
        (lwOutput query results (some k)).length ≤ k)
    ∧ (∀ (predict : String → String → ℚ) (query : String)
        (results : List SearchResult) (k : ℕ), 1 ≤ k →
        (ceOutput predict query results (some k)).length ≤ k) := by
  refine ⟨?_, ?_, ?_, ?_⟩
  · intro gs st q k
    unfold bm25Search
    split
    · simp
    · split
      · simp
      · dsimp only
        split
        · simp
        · exact length_filterMap_take_le _ _ _
  · intro denseFn gs st bst q k deps
    unfold hybridSearch
    dsimp only
    split
    · simp
    · exact List.length_take_le _ _
  · intro q results k hk
    have htr : pyTruthy (some k) = true := by
      unfold pyTruthy
      simpa using Nat.one_le_iff_ne_zero.mp hk
    unfold lwOutput lwRerank rerankCore
    by_cases hres : results.isEmpty = true
    · simp [hres]
    · simp only [hres, if_false, Bool.false_eq_true, htr, if_true]
      exact length_filterMap_take_le _ _ _
  · intro predict q results k hk
    have htr : pyTruthy (some k) = true := by
      unfold pyTruthy
      simpa using Nat.one_le_iff_ne_zero.mp hk
    unfold ceOutput ceRerank rerankCore
    by_cases hres : results.isEmpty = true
    · simp [hres]
    · simp only [hres, if_false, Bool.false_eq_true, htr, if_true]
      exact length_filterMap_take_le _ _ _

/-- Witness for C6's amended theorem at concrete inputs. -/
theorem C6_top_k_respected_amended_witness :
    (bm25Search (fun _ _ => [5]) (bm25IndexOn bm25InitState [chunkA1]) "alpha" 0).length ≤ 0
    ∧ (lwOutput "q" [sampleA] (some 1)).length ≤ 1 :=
  ⟨C6_top_k_respected_amended.1 (fun _ _ => [5]) (bm25IndexOn bm25InitState [chunkA1]) "alpha" 0,
   C6_top_k_respected_amended.2.2.1 "q" [sampleA] 1 (by decide)⟩

/-! ### C2: the reciprocal rank fusion formula -/

/-- C2: with the default weights (`dense_weight = 0.7`,
`bm25_weight = 0.3`) and `k = 60`, every fused result's score is the sum of
its two stage contributions `weight / (60 + rank)` (1-based ranks, each
contribution 0 when the id is absent from that stage); each chunk identity
appears exactly once; an id is fused iff it appears in at least one stage
list; and the fused list is sorted by score descending.  Stage lists carry
duplicate-free chunk ids (the spec's identity contract). -/
theorem C2_reciprocal_rank_fusion_formula (dense bm : List SearchResult)
    (hd : (dense.map (fun r => r.chunk_id)).Nodup)
    (hb : (bm.map (fun r => r.chunk_id)).Nodup) :
    (∀ r ∈ reciprocalRankFusion dense_weight bm25_weight dense bm k_rrf,
        r.score = some (rankContrib dense_weight k_rrf dense r.chunk_id
          + rankContrib bm25_weight k_rrf bm r.chunk_id))
    ∧ ((reciprocalRankFusion dense_weight bm25_weight dense bm k_rrf).map
        (fun r => r.chunk_id)).Nodup
    ∧ (∀ id, (∃ r ∈ reciprocalRankFusion dense_weight bm25_weight dense bm k_rrf,
          r.chunk_id = id) ↔
        (∃ r ∈ dense, r.chunk_id = id) ∨ (∃ r ∈ bm, r.chunk_id = id))
    ∧ sortedByScoreDesc (reciprocalRankFusion dense_weight bm25_weight dense bm k_rrf) :=
  ⟨rrf_mem_score dense_weight bm25_weight dense bm k_rrf hd hb,
   rrf_ids_nodup dense_weight bm25_weight dense bm k_rrf hd,
   rrf_mem_ids dense_weight bm25_weight dense bm k_rrf hd,
   rrf_sorted dense_weight bm25_weight dense bm k_rrf⟩

/-- Witness for C2 at concrete stage lists. -/
theorem C2_reciprocal_rank_fusion_formula_witness :
    (∀ r ∈ reciprocalRankFusion dense_weight bm25_weight [sampleA, sampleB] [sampleB] k_rrf,
        r.score = some (rankContrib dense_weight k_rrf [sampleA, sampleB] r.chunk_id
          + rankContrib bm25_weight k_rrf [sampleB] r.chunk_id))
    ∧ ((reciprocalRankFusion dense_weight bm25_weight [sampleA, sampleB] [sampleB] k_rrf).map
        (fun r => r.chunk_id)).Nodup
    ∧ (∀ id, (∃ r ∈ reciprocalRankFusion dense_weight bm25_weight [sampleA, sampleB]
          [sampleB] k_rrf, r.chunk_id = id) ↔
        (∃ r ∈ [sampleA, sampleB], r.chunk_id = id) ∨ (∃ r ∈ [sampleB], r.chunk_id = id))
    ∧ sortedByScoreDesc (reciprocalRankFusion dense_weight bm25_weight [sampleA, sampleB]
        [sampleB] k_rrf) :=
  C2_reciprocal_rank_fusion_formula [sampleA, sampleB] [sampleB] (by decide) (by decide)

/-! ### C7: rank-1-in-both dominance -/

theorem rankContrib_head (w : ℚ) (k : ℕ) (s : SearchResult) (t : List SearchResult) :
    rankContrib w k (s :: t) s.chunk_id = w / ((k : ℚ) + 1) := by
  unfold rankContrib
  rw [List.enum_cons, List.find?_cons]
  simp

theorem rankContrib_le_of_head_ne (w : ℚ) (hw : 0 ≤ w) (k : ℕ)
    (l : List SearchResult) (id : String)
    (hhead : ∀ s ∈ l.head?, s.chunk_id ≠ id) :
    rankContrib w k l id ≤ w / ((k : ℚ) + 2) := by
  cases l with
  | nil =>
    unfold rankContrib
    simp only [List.enum_nil, List.find?_nil]
    positivity
  | cons s t =>
    have hs : s.chunk_id ≠ id := hhead s (by simp)
    unfold rankContrib
    rw [List.enum_cons, List.find?_cons]
    have hbeq : (s.chunk_id == id) = false := by simpa using hs
    simp only [hbeq]
    cases hf : (t.enumFrom 1).find? (fun p => p.2.chunk_id == id) with
    | none => positivity
    | some p =>
      have hp1 : 1 ≤ p.1 := fst_ge_of_mem_enumFrom (List.mem_of_find?_eq_some hf)
      have hkp : (k : ℚ) + 2 ≤ (k : ℚ) + (p.1 : ℚ) + 1 := by
        have : (1 : ℚ) ≤ (p.1 : ℚ) := by exact_mod_cast hp1
        linarith
      have hpos : (0 : ℚ) < (k : ℚ) + 2 := by positivity
      exact div_le_div_of_nonneg_left hw hpos hkp

/-- C7: a chunk at rank 1 in both stage lists is fused with score
`0.7/61 + 0.3/61 = 1/61`, which strictly exceeds the fused score of any
chunk at rank 1 in only one of two stage lists (whose other-stage
contribution is at rank ≥ 2 or absent). -/
theorem C7_rank1_both_dominates
    (d1 b1 d2 b2 : List SearchResult)
    (hd1 : (d1.map (fun r => r.chunk_id)).Nodup)
    (hb1 : (b1.map (fun r => r.chunk_id)).Nodup)
    (hd2 : (d2.map (fun r => r.chunk_id)).Nodup)
    (hb2 : (b2.map (fun r => r.chunk_id)).Nodup)
    (x y : String)
    (hx1 : ∃ s, d1.head? = some s ∧ s.chunk_id = x)
    (hx2 : ∃ s, b1.head? = some s ∧ s.chunk_id = x)
    (hy : (∃ s, d2.head? = some s ∧ s.chunk_id = y ∧ ∀ s2 ∈ b2.head?, s2.chunk_id ≠ y)
        ∨ (∃ s, b2.head? = some s ∧ s.chunk_id = y ∧ ∀ s2 ∈ d2.head?, s2.chunk_id ≠ y)) :
    ∀ r ∈ reciprocalRankFusion dense_weight bm25_weight d1 b1 k_rrf, r.chunk_id = x →
    ∀ r2 ∈ reciprocalRankFusion dense_weight bm25_weight d2 b2 k_rrf, r2.chunk_id = y →
      scoreOf r2 < scoreOf r := by
  intro r hr hrx r2 hr2 hry
  have h1 := rrf_mem_score dense_weight bm25_weight d1 b1 k_rrf hd1 hb1 r hr
  have h2 := rrf_mem_score dense_weight bm25_weight d2 b2 k_rrf hd2 hb2 r2 hr2
  have hs1 : scoreOf r = rankContrib dense_weight k_rrf d1 x
      + rankContrib bm25_weight k_rrf b1 x := by
    unfold scoreOf
    rw [h1, hrx]
    rfl
  have hs2 : scoreOf r2 = rankContrib dense_weight k_rrf d2 y
      + rankContrib bm25_weight k_rrf b2 y := by
    unfold scoreOf
    rw [h2, hry]
    rfl
  obtain ⟨s1, hs1h, hs1x⟩ := hx1
  obtain ⟨s2, hs2h, hs2x⟩ := hx2
  have hcd1 : rankContrib dense_weight k_rrf d1 x = dense_weight / 61 := by
    cases d1 with
    | nil => simp at hs1h
    | cons a t =>
      have ha : a = s1 := by simpa using hs1h
      subst ha
      rw [← hs1x, rankContrib_head]
      norm_num [k_rrf]
  have hcb1 : rankContrib bm25_weight k_rrf b1 x = bm25_weight / 61 := by
    cases b1 with
    | nil => simp at hs2h
    | cons a t =>
      have ha : a = s2 := by simpa using hs2h
      subst ha
      rw [← hs2x, rankContrib_head]
      norm_num [k_rrf]
  have hwd : (0 : ℚ) ≤ dense_weight := by norm_num [dense_weight]
  have hwb : (0 : ℚ) ≤ bm25_weight := by norm_num [bm25_weight]
  rcases hy with ⟨s3, hs3h, hs3y, hother⟩ | ⟨s3, hs3h, hs3y, hother⟩
  · have hcd2 : rankContrib dense_weight k_rrf d2 y = dense_weight / 61 := by
      cases d2 with
      | nil => simp at hs3h
      | cons a t =>
        have ha : a = s3 := by simpa using hs3h
        subst ha
        rw [← hs3y, rankContrib_head]
        norm_num [k_rrf]
    have hcb2 : rankContrib bm25_weight k_rrf b2 y ≤ bm25_weight / 62 := by
      have := rankContrib_le_of_head_ne bm25_weight hwb k_rrf b2 y hother
      calc rankContrib bm25_weight k_rrf b2 y ≤ bm25_weight / ((k_rrf : ℚ) + 2) := this
        _ = bm25_weight / 62 := by norm_num [k_rrf]
    rw [hs1, hs2, hcd1, hcb1, hcd2]
    have hlt : bm25_weight / 62 < bm25_weight / 61 := by
      norm_num [bm25_weight]
    linarith
  · have hcb2 : rankContrib bm25_weight k_rrf b2 y = bm25_weight / 61 := by
      cases b2 with
      | nil => simp at hs3h
      | cons a t =>
        have ha : a = s3 := by simpa using hs3h
        subst ha
        rw [← hs3y, rankContrib_head]
        norm_num [k_rrf]
    have hcd2 : rankContrib dense_weight k_rrf d2 y ≤ dense_weight / 62 := by
      have := rankContrib_le_of_head_ne dense_weight hwd k_rrf d2 y hother
      calc rankContrib dense_weight k_rrf d2 y ≤ dense_weight / ((k_rrf : ℚ) + 2) := this
        _ = dense_weight / 62 := by norm_num [k_rrf]
    rw [hs1, hs2, hcd1, hcb1, hcb2]
    have hlt : dense_weight / 62 < dense_weight / 61 := by
      norm_num [dense_weight]
    linarith

/-- Witness for C7 at concrete stage lists: first fusion has `sampleA` at
rank 1 of both lists, second fusion has it at rank 1 of the dense list
only (empty lexical list). -/
theorem C7_rank1_both_dominates_witness :
    scoreOf (fusionProj (denseEntry dense_weight k_rrf 0 sampleA))
      < scoreOf (fusionProj (bm25UpdateEntry bm25_weight k_rrf 0 sampleA
          (denseEntry dense_weight k_rrf 0 sampleA))) := by
  have h1 : reciprocalRankFusion dense_weight bm25_weight [sampleA] [sampleA] k_rrf
      = [fusionProj (bm25UpdateEntry bm25_weight k_rrf 0 sampleA
          (denseEntry dense_weight k_rrf 0 sampleA))] := rfl
  have h2 : reciprocalRankFusion dense_weight bm25_weight [sampleA] [] k_rrf
      = [fusionProj (denseEntry dense_weight k_rrf 0 sampleA)] := rfl
  refine C7_rank1_both_dominates [sampleA] [sampleA] [sampleA] [] (by decide) (by decide)
    (by decide) (by decide) "a" "a" ⟨sampleA, rfl, rfl⟩ ⟨sampleA, rfl, rfl⟩
    (Or.inl ⟨sampleA, rfl, rfl, by intro s2 hs2; simp at hs2⟩) _ ?_ rfl _ ?_ rfl
  · rw [h1]
    exact List.mem_singleton_self _
  · rw [h2]
    exact List.mem_singleton_self _

/-! ### Sortedness and stability of the remaining stages -/

theorem pairwise_filterMap_of {α β : Type} {S : α → α → Prop} {R : β → β → Prop}
    (f : α → Option β) :
    ∀ (l : List α), l.Pairwise S →
    (∀ a ∈ l, ∀ b ∈ l, S a b → ∀ x y, f a = some x → f b = some y → R x y) →
    (l.filterMap f).Pairwise R := by
  intro l
  induction l with
  | nil => intro _ _; simp
  | cons a t ih =>
    intro hp hrel
    obtain ⟨ha, hp'⟩ := List.pairwise_cons.mp hp
    rw [List.filterMap_cons]
    cases hfa : f a with
    | none =>
      exact ih hp' (fun x hx y hy hS => hrel x (List.mem_cons_of_mem _ hx)
        y (List.mem_cons_of_mem _ hy) hS)
    | some x =>
      rw [List.pairwise_cons]
      constructor
      · intro y hy
        rcases List.mem_filterMap.mp hy with ⟨b, hb, hfb⟩
        exact hrel a (List.mem_cons_self _ _) b (List.mem_cons_of_mem _ hb)
          (ha b hb) x y hfa hfb
      · exact ih hp' (fun u hu v hv hS => hrel u (List.mem_cons_of_mem _ hu)
          v (List.mem_cons_of_mem _ hv) hS)

/-- The lexical search output is sorted by score descending. -/
theorem bm25Search_sorted (getScores : List (List String) → List String → List ℚ)
    (st : BM25State) (query : String) (top_k : ℕ) :
    sortedByScoreDesc (bm25Search getScores st query top_k) := by
  unfold bm25Search
  split
  · simp [sortedByScoreDesc]
  · split
    · simp [sortedByScoreDesc]
    · dsimp only
      split
      · simp [sortedByScoreDesc]
      · unfold sortedByScoreDesc
        apply pairwise_filterMap_of
        · exact (pySortDesc_sorted _ _).sublist (List.take_sublist _ _)
        · intro i _ j _ hS x y hfx hfy
          split at hfx
          · split at hfy
            · cases hgx : st.chunks.get? i with
              | none => rw [hgx] at hfx; cases hfx
              | some c =>
                cases hgy : st.chunks.get? j with
                | none => rw [hgy] at hfy; cases hfy
                | some c2 =>
                  rw [hgx] at hfx
                  rw [hgy] at hfy
                  simp only [Option.map_some', Option.some.injEq] at hfx hfy
                  show scoreOf y ≤ scoreOf x
                  rw [← hfx, ← hfy]
                  exact hS
            · cases hfy
          · cases hfx

/-- Tie stability of the index sort used by the lexical search: within one
score level, indices (= original chunk positions) stay in ascending order. -/
theorem bm25_index_sort_stable (scores : List ℚ) (q : ℚ) :
    ((pySortDesc (fun i => scores.getD i 0) (List.range scores.length)).filter
        (fun i => decide (scores.getD i 0 = q)))
      = (List.range scores.length).filter (fun i => decide (scores.getD i 0 = q)) :=
  pySortDesc_stable (fun i => scores.getD i 0) (List.range scores.length) q

/-- Tie stability of the fusion sort: within one score level the fused
output preserves the dict's insertion order (dense order first, then new
lexical-only ids). -/
theorem rrf_stable (dw bw : ℚ) (dense bm : List SearchResult) (k : ℕ) (q : ℚ) :
    (reciprocalRankFusion dw bw dense bm k).filter (fun r => decide (scoreOf r = q))
      = ((fusionDict dw bw k dense bm).filter
          (fun e => decide (e.rrf_score = q))).map fusionProj := by
  unfold reciprocalRankFusion
  by_cases hemp : (fusionDict dw bw k dense bm).isEmpty = true
  · have hnil : fusionDict dw bw k dense bm = [] := by
      cases h : fusionDict dw bw k dense bm with
      | nil => rfl
      | cons a t => rw [h] at hemp; simp [List.isEmpty] at hemp
    simp [hemp, hnil]
  · simp only [hemp, if_false, Bool.false_eq_true]
    rw [List.filter_map]
    have hc : ((fun r => decide (scoreOf r = q)) ∘ fusionProj)
        = (fun e : FusionEntry => decide (e.rrf_score = q)) := by
      funext e
      rfl
    rw [hc]
    congr 1
    exact pySortDesc_stable (fun e : FusionEntry => e.rrf_score)
      (fusionDict dw bw k dense bm) q

/-- Both rerankers' returned lists are sorted by the (rewritten) score
field descending, provided the final write makes `score` equal the sort
key — which both variants do. -/
theorem rerankCore_sorted (annot : SearchResult → SearchResult)
    (keyf : SearchResult → ℚ) (upd : SearchResult → SearchResult)
    (hupd : ∀ r, scoreOf (upd r) = keyf r)
    (results : List SearchResult) (top_k : Option ℕ) :
    sortedByScoreDesc (((rerankCore annot keyf upd results top_k).2).filterMap
      (fun i => (rerankCore annot keyf upd results top_k).1.get? i)) := by
  unfold rerankCore
  by_cases hres : results.isEmpty = true
  · simp [hres, sortedByScoreDesc]
  · simp only [hres, if_false, Bool.false_eq_true]
    unfold sortedByScoreDesc
    apply pairwise_filterMap_of
    · -- the kept index list is sorted descending by the sort key
      cases htr : pyTruthy top_k
      · rw [if_neg (show ¬(false = true) by simp)]
        exact pySortDesc_sorted _ _
      · rw [if_pos rfl]
        exact (pySortDesc_sorted _ _).sublist (List.take_sublist _ _)
    · intro i hi j hj hS x y hfx hfy
      have hik : i ∈ (if pyTruthy top_k = true then
          (pySortDesc (fun i => (((results.map annot).get? i).map keyf).getD 0)
            (List.range (results.map annot).length)).take (top_k.getD 0)
          else pySortDesc (fun i => (((results.map annot).get? i).map keyf).getD 0)
            (List.range (results.map annot).length)) := hi
      have hjk := hj
      -- the final list at a kept position i holds `upd` of the annotation
      rw [List.get?_map, List.enum_get?] at hfx hfy
      cases hgi : (results.map annot).get? i with
      | none => rw [hgi] at hfx; cases hfx
      | some a =>
        cases hgj : (results.map annot).get? j with
        | none => rw [hgj] at hfy; cases hfy
        | some b =>
          rw [hgi] at hfx
          rw [hgj] at hfy
          simp only [Option.map_some', Option.some.injEq] at hfx hfy
          rw [if_pos hi] at hfx
          rw [if_pos hj] at hfy
          show scoreOf y ≤ scoreOf x
          rw [← hfx, ← hfy, hupd a, hupd b]
          have hSi : (((results.map annot).get? j).map keyf).getD 0
              ≤ (((results.map annot).get? i).map keyf).getD 0 := hS
          rw [hgi, hgj] at hSi
          simpa using hSi

/-- Tie stability of both rerankers (untruncated case): within one sort-key
level, the returned positions keep ascending (= input) order. -/
theorem rerankCore_stable (annot : SearchResult → SearchResult)
    (keyf : SearchResult → ℚ) (upd : SearchResult → SearchResult)
    (results : List SearchResult) (q : ℚ) :
    ((rerankCore annot keyf upd results none).2).filter
        (fun i => decide ((((results.map annot).get? i).map keyf).getD 0 = q))
      = (List.range results.length).filter
        (fun i => decide ((((results.map annot).get? i).map keyf).getD 0 = q)) := by
  unfold rerankCore
  by_cases hres : results.isEmpty = true
  · have : results = [] := by
      cases results with
      | nil => rfl
      | cons a t => simp [List.isEmpty] at hres
    simp [hres, this]
  · simp only [hres, if_false, Bool.false_eq_true]
    have htr : pyTruthy none = false := rfl
    simp only [htr, Bool.false_eq_true, if_false, List.length_map]
    exact pySortDesc_stable _ _ q

/-! ### C3: the sorted-output invariant -/

/-- C3 counterexample: a hybrid search with dependency expansion is NOT
sorted by score descending.  Every reciprocal-rank-fusion score is at most
`1/61 < 0.1`, yet dependency-sourced entries carry score `0.1` and are
appended at the END of the list, so the concrete scenario below returns
scores `[7/610, 1/10]`, an ascending pair. -/
theorem C3_sorted_counterexample :
    ¬ sortedByScoreDesc (hybridSearch (fun _ => [organicA]) (fun _ _ => [])
      scenarioState bm25InitState "alpha" 5 true) := by
  have h : hybridSearch (fun _ => [organicA]) (fun _ _ => [])
      scenarioState bm25InitState "alpha" 5 true
      = [fusionProj (denseEntry dense_weight k_rrf 0 organicA), depResult chunkB1] := by
    set_option maxRecDepth 2000 in rfl
  rw [h]
  unfold sortedByScoreDesc
  rw [List.pairwise_cons]
  intro hcon
  have := hcon.1 (depResult chunkB1) (by simp)
  have h1 : scoreOf (depResult chunkB1) = 1/10 := rfl
  have h2 : scoreOf (fusionProj (denseEntry dense_weight k_rrf 0 organicA))
      = dense_weight / ((k_rrf : ℚ) + (0 : ℕ) + 1) := rfl
  rw [h1, h2] at this
  norm_num [dense_weight, k_rrf] at this

/-- C3 (amended): the sorted-by-score-descending invariant (with stable
ties) holds for the lexical search, the reciprocal-rank fusion, and both
rerankers, but NOT for the hybrid search output once dependency expansion
appends 0.1-scored entries behind fused entries (whose scores are < 0.1).
Stability is stated per stage as: within one sort-key level the output
preserves the pre-sort (insertion) order. -/
theorem C3_sorted_amended :
    (∀ (getScores : List (List String) → List String → List ℚ) (st : BM25State)
        (query : String) (top_k : ℕ),
        sortedByScoreDesc (bm25Search getScores st query top_k))
    ∧ (∀ dense bm : List SearchResult,
        sortedByScoreDesc (reciprocalRankFusion dense_weight bm25_weight dense bm k_rrf))
    ∧ (∀ (query : String) (results : List SearchResult) (top_k : Option ℕ),
        sortedByScoreDesc (lwOutput query results top_k))
    ∧ (∀ (predict : String → String → ℚ) (query : String)
        (results : List SearchResult) (top_k : Option ℕ),
        sortedByScoreDesc (ceOutput predict query results top_k))
    ∧ (∀ (scores : List ℚ) (q : ℚ),
        ((pySortDesc (fun i => scores.getD i 0) (List.range scores.length)).filter
          (fun i => decide (scores.getD i 0 = q)))
        = (List.range scores.length).filter (fun i => decide (scores.getD i 0 = q)))
    ∧ (∀ (dense bm : List SearchResult) (q : ℚ),
        (reciprocalRankFusion dense_weight bm25_weight dense bm k_rrf).filter
            (fun r => decide (scoreOf r = q))
          = ((fusionDict dense_weight bm25_weight k_rrf dense bm).filter
              (fun e => decide (e.rrf_score = q))).map fusionProj)
    ∧ (∀ (query : String) (results : List SearchResult) (q : ℚ),
        ((lwRerank query results none).2).filter
            (fun i => decide ((((results.map (lwAnnotate query)).get? i).map
              (fun r => r.rerank_score.getD 0)).getD 0 = q))
          = (List.range results.length).filter
            (fun i => decide ((((results.map (lwAnnotate query)).get? i).map
              (fun r => r.rerank_score.getD 0)).getD 0 = q))) := by
  refine ⟨bm25Search_sorted, ?_, ?_, ?_, bm25_index_sort_stable, ?_, ?_⟩
  · intro dense bm
    exact rrf_sorted dense_weight bm25_weight dense bm k_rrf
  · intro query results top_k
    exact rerankCore_sorted (lwAnnotate query) (fun r => r.rerank_score.getD 0)
      (fun r => { r with score := some (r.rerank_score.getD 0) })
      (fun r => rfl) results top_k
  · intro predict query results top_k
    exact rerankCore_sorted (ceAnnotate predict query)
      (fun r => r.cross_encoder_score.getD 0)
      (fun r => { r with score := r.cross_encoder_score })
      (fun r => rfl) results top_k
  · intro dense bm q
    exact rrf_stable dense_weight bm25_weight dense bm k_rrf q
  · intro query results q
    exact rerankCore_stable (lwAnnotate query) (fun r => r.rerank_score.getD 0)
      (fun r => { r with score := some (r.rerank_score.getD 0) }) results q

/-- Witness for C3's amended theorem at concrete inputs. -/
theorem C3_sorted_amended_witness :
    sortedByScoreDesc (bm25Search (fun _ _ => [5])
      (bm25IndexOn bm25InitState [chunkA1]) "alpha" 10)
    ∧ sortedByScoreDesc (reciprocalRankFusion dense_weight bm25_weight [sampleA] [] k_rrf) :=
  ⟨C3_sorted_amended.1 (fun _ _ => [5]) (bm25IndexOn bm25InitState [chunkA1]) "alpha" 10,
   C3_sorted_amended.2.1 [sampleA] []⟩

/-! ### C4: dependency expansion containment -/

theorem setInsert_idem (s : List String) (c : String) :
    setInsert (setInsert s c) c = setInsert s c := by
  unfold setInsert
  by_cases h : c ∈ s
  · simp [h]
  · rw [if_neg h, if_pos (by simp)]

theorem foldl_setInsert_const (c : String) :
    ∀ (l : List String) (s : List String), (∀ x ∈ l, x = c) → l ≠ [] →
      l.foldl setInsert s = setInsert s c := by
  intro l
  induction l with
  | nil => intro s _ h; exact absurd rfl h
  | cons x t ih =>
    intro s hall _
    have hx : x = c := hall x (List.mem_cons_self _ _)
    subst hx
    simp only [List.foldl_cons]
    by_cases ht : t = []
    · subst ht
      simp
    · rw [ih (setInsert s x) (fun y hy => hall y (List.mem_cons_of_mem _ hy)) ht,
        setInsert_idem]

/-- The expansion step on the `a.py → b.py → c.py` scenario: organic
results all in `a.py` get exactly one `b.py` chunk appended. -/
theorem expand_scenario (results : List SearchResult) (top_k : ℕ)
    (hne : results ≠ [])
    (hall : ∀ r ∈ results, r.metadata.file_path = "a.py")
    (hids : "b1" ∉ results.map (fun r => r.chunk_id)) :
    expandWithDependencies scenarioState results top_k
      = results ++ [depResult chunkB1] := by
  obtain ⟨r0, rest, rfl⟩ : ∃ r0 rest, results = r0 :: rest := by
    cases results with
    | nil => exact absurd rfl hne
    | cons a t => exact ⟨a, t, rfl⟩
  unfold expandWithDependencies
  rw [if_neg (by simp [scenarioState])]
  dsimp only
  have htf : ((((r0 :: rest).take 5).map (fun r => r.metadata.file_path)).filter
      (fun f => f != "")).foldl setInsert [] = ["a.py"] := by
    have hconst : ∀ x ∈ (((r0 :: rest).take 5).map
        (fun r => r.metadata.file_path)).filter (fun f => f != ""), x = "a.py" := by
      intro x hx
      have hx2 := List.mem_of_mem_filter hx
      rcases List.mem_map.mp hx2 with ⟨r, hr, hrx⟩
      rw [← hrx]
      exact hall r (List.mem_of_mem_take hr)
    have hnonempty : (((r0 :: rest).take 5).map
        (fun r => r.metadata.file_path)).filter (fun f => f != "") ≠ [] := by
      have h0 : r0.metadata.file_path = "a.py" := hall r0 (List.mem_cons_self _ _)
      rw [List.take_succ_cons, List.map_cons, List.filter_cons, h0]
      simp
    rw [foldl_setInsert_const "a.py" _ [] hconst hnonempty]
    rfl
  rw [htf]
  rw [if_neg (by simp)]
  have hrel : (["a.py"].foldl
      (fun acc f => setUnion acc (getRelatedFiles scenarioState.graph f 1)) [])
      = ["b.py"] := by decide
  rw [hrel]
  have hex : ((r0 :: rest).map (fun r => r.metadata.file_path)).foldl setInsert []
      = ["a.py"] := by
    refine foldl_setInsert_const "a.py" _ [] ?_ (by simp)
    intro x hx
    rcases List.mem_map.mp hx with ⟨r, hr, hrx⟩
    rw [← hrx]
    exact hall r hr
  rw [hex]
  have hnew : setDiff ["b.py"] ["a.py"] = ["b.py"] := by decide
  rw [hnew]
  show (depAppendFile scenarioState
      (r0 :: rest, (r0 :: rest).map (fun r => r.chunk_id)) "b.py").1
      = (r0 :: rest) ++ [depResult chunkB1]
  unfold depAppendFile
  have hlk : lookupStr scenarioState.file_to_chunks "b.py" = some ["b1"] := by decide
  rw [hlk]
  show (depAppendChunk scenarioState
      (r0 :: rest, (r0 :: rest).map (fun r => r.chunk_id)) "b1").1 = _
  unfold depAppendChunk
  rw [if_neg hids]
  have hfind : scenarioState.chunks.find? (fun c => c.chunk_id == "b1")
      = some chunkB1 := by decide
  rw [hfind]

/-- C4: in the scenario `a.py imports b.py imports c.py`, a hybrid search
with dependencies enabled whose organic results all come from `a.py` (and
leave room under `top_k`) surfaces at least one `b.py` chunk with score
exactly 0.1 and the `from_dependency` tag, never surfaces any `c.py` chunk
(depth 2), and keeps every organic result ahead of every dependency-sourced
entry. -/
theorem C4_dependency_expansion (results : List SearchResult) (top_k : ℕ)
    (hne : results ≠ [])
    (hall : ∀ r ∈ results, r.metadata.file_path = "a.py")
    (hids : "b1" ∉ results.map (fun r => r.chunk_id))
    (hlen : results.length < top_k) :
    (∃ r ∈ (expandWithDependencies scenarioState results top_k).take top_k,
        r.metadata.file_path = "b.py" ∧ r.score = some (1/10)
          ∧ r.from_dependency = true)
    ∧ (∀ r ∈ (expandWithDependencies scenarioState results top_k).take top_k,
        r.metadata.file_path ≠ "c.py")
    ∧ ((expandWithDependencies scenarioState results top_k).take top_k).take
        results.length = results := by
  have hexp := expand_scenario results top_k hne hall hids
  have htake : (expandWithDependencies scenarioState results top_k).take top_k
      = results ++ [depResult chunkB1] := by
    rw [hexp]
    refine List.take_of_length_le ?_
    rw [List.length_append]
    simpa using hlen
  rw [htake]
  refine ⟨⟨depResult chunkB1, ?_, rfl, rfl, rfl⟩, ?_, ?_⟩
  · exact List.mem_append_right _ (List.mem_singleton_self _)
  · intro r hr
    rcases List.mem_append.mp hr with hr | hr
    · rw [hall r hr]
      decide
    · have : r = depResult chunkB1 := by simpa using hr
      rw [this]
      show "b.py" ≠ "c.py"
      decide
  · rw [List.take_append_eq_append_take, List.take_length, Nat.sub_self]
    simp

/-- Witness for C4 at a concrete organic result list. -/
theorem C4_dependency_expansion_witness :
    (∃ r ∈ (expandWithDependencies scenarioState [organicA] 5).take 5,
        r.metadata.file_path = "b.py" ∧ r.score = some (1/10)
          ∧ r.from_dependency = true)
    ∧ (∀ r ∈ (expandWithDependencies scenarioState [organicA] 5).take 5,
        r.metadata.file_path ≠ "c.py")
    ∧ ((expandWithDependencies scenarioState [organicA] 5).take 5).take
        [organicA].length = [organicA] :=
  C4_dependency_expansion [organicA] 5 (by decide) (by decide) (by decide) (by decide)

/-! ### C10: reranking mutates the input dicts in place -/

theorem rerankCore_frame (annot : SearchResult → SearchResult)
    (keyf : SearchResult → ℚ) (upd : SearchResult → SearchResult)
    (results : List SearchResult) (top_k : Option ℕ) :
    ((rerankCore annot keyf upd results top_k).1.length = results.length)
    ∧ (∀ i ∈ (rerankCore annot keyf upd results top_k).2, i < results.length)
    ∧ (∀ i r, results.get? i = some r →
        (rerankCore annot keyf upd results top_k).1.get? i
          = some (if i ∈ (rerankCore annot keyf upd results top_k).2
              then upd (annot r) else annot r)) := by
  unfold rerankCore
  by_cases hres : results.isEmpty = true
  · have hnil : results = [] := by
      cases results with
      | nil => rfl
      | cons a t => simp [List.isEmpty] at hres
    subst hnil
    refine ⟨rfl, ?_, ?_⟩
    · intro i hi
      simp at hi
    · intro i r hir
      simp at hir
  · simp only [hres, if_false, Bool.false_eq_true]
    refine ⟨?_, ?_, ?_⟩
    · simp
    · intro i hi
      have hi2 : i ∈ pySortDesc
          (fun i => (((results.map annot).get? i).map keyf).getD 0)
          (List.range (results.map annot).length) := by
        by_cases htr : pyTruthy top_k = true
        · rw [if_pos htr] at hi
          exact List.mem_of_mem_take hi
        · rw [if_neg htr] at hi
          exact hi
      have := (pySortDesc_perm _ _).mem_iff.mp hi2
      rw [List.mem_range, List.length_map] at this
      exact this
    · intro i r hir
      rw [List.get?_map, List.enum_get?, List.get?_map, hir]
      rfl

/-- C10: both rerankers write `original_score` and the variant's rerank
score into EVERY input dict (also those truncated away), overwrite `score`
on exactly the dicts that occur in the returned list, and the returned
positions all point back into the input list (the returned list aliases the
mutated input dicts). -/
theorem C10_rerank_mutates_in_place (query : String) (predict : String → String → ℚ)
    (results : List SearchResult) (top_k : Option ℕ) :
    ((lwRerank query results top_k).1.length = results.length
      ∧ (∀ i ∈ (lwRerank query results top_k).2, i < results.length)
      ∧ (∀ i r, results.get? i = some r →
          ∃ r2, (lwRerank query results top_k).1.get? i = some r2
            ∧ r2.original_score = some (r.score.getD 0)
            ∧ r2.rerank_score = some (r.score.getD 0 + lwBoost query r)
            ∧ r2.score = (if i ∈ (lwRerank query results top_k).2
                then some (r.score.getD 0 + lwBoost query r) else r.score)))
    ∧ ((ceRerank predict query results top_k).1.length = results.length
      ∧ (∀ i ∈ (ceRerank predict query results top_k).2, i < results.length)
      ∧ (∀ i r, results.get? i = some r →
          ∃ r2, (ceRerank predict query results top_k).1.get? i = some r2
            ∧ r2.original_score = some (r.score.getD 0)
            ∧ r2.cross_encoder_score = some (predict query (ceTruncContent r.content))
            ∧ r2.score = (if i ∈ (ceRerank predict query results top_k).2
                then some (predict query (ceTruncContent r.content)) else r.score))) := by
  have hlw := rerankCore_frame (lwAnnotate query) (fun r => r.rerank_score.getD 0)
    (fun r => { r with score := some (r.rerank_score.getD 0) }) results top_k
  have hce := rerankCore_frame (ceAnnotate predict query)
    (fun r => r.cross_encoder_score.getD 0)
    (fun r => { r with score := r.cross_encoder_score }) results top_k
  constructor
  · refine ⟨hlw.1, hlw.2.1, ?_⟩
    intro i r hir
    have h := hlw.2.2 i r hir
    simp only [lwRerank]
    by_cases hmem : i ∈ (rerankCore (lwAnnotate query) (fun r => r.rerank_score.getD 0)
        (fun r => { r with score := some (r.rerank_score.getD 0) }) results top_k).2
    · rw [if_pos hmem] at h
      refine ⟨_, h, ?_, ?_, ?_⟩ <;> simp [lwAnnotate, hmem]
    · rw [if_neg hmem] at h
      refine ⟨_, h, ?_, ?_, ?_⟩ <;> simp [lwAnnotate, hmem]
  · refine ⟨hce.1, hce.2.1, ?_⟩
    intro i r hir
    have h := hce.2.2 i r hir
    simp only [ceRerank]
    by_cases hmem : i ∈ (rerankCore (ceAnnotate predict query)
        (fun r => r.cross_encoder_score.getD 0)
        (fun r => { r with score := r.cross_encoder_score }) results top_k).2
    · rw [if_pos hmem] at h
      refine ⟨_, h, ?_, ?_, ?_⟩ <;> simp [ceAnnotate, hmem]
    · rw [if_neg hmem] at h
      refine ⟨_, h, ?_, ?_, ?_⟩ <;> simp [ceAnnotate, hmem]

/-- Witness for C10 at a concrete one-element input. -/
theorem C10_rerank_mutates_in_place_witness :
    [sampleA].get? 0 = some sampleA
    ∧ (∃ r2, (lwRerank "q" [sampleA] none).1.get? 0 = some r2
        ∧ r2.original_score = some (sampleA.score.getD 0)
        ∧ r2.rerank_score = some (sampleA.score.getD 0 + lwBoost "q" sampleA)
        ∧ r2.score = (if 0 ∈ (lwRerank "q" [sampleA] none).2
            then some (sampleA.score.getD 0 + lwBoost "q" sampleA) else sampleA.score)) :=
  ⟨rfl, (C10_rerank_mutates_in_place "q" (fun _ _ => 2) [sampleA] none).1.2.2 0 sampleA rfl⟩

/-! ### C9: name-match reranking monotonicity -/

theorem strIn_nil_left : ∀ l : List Char, strIn [] l = true := by
  intro l
  cases l <;> rfl

theorem isPrefixOf_append_self : ∀ (l t : List Char), l.isPrefixOf (l ++ t) = true := by
  intro l
  induction l with
  | nil =>
    intro t
    rw [List.nil_append]
    cases t <;> rfl
  | cons a as ih =>
    intro t
    show ((a == a) && as.isPrefixOf (as ++ t)) = true
    simp [ih t]

theorem strIn_of_append : ∀ (pre mid suf : List Char),
    strIn mid (pre ++ mid ++ suf) = true := by
  intro pre
  induction pre with
  | nil =>
    intro mid suf
    cases mid with
    | nil => simpa using strIn_nil_left suf
    | cons c m =>
      show ((c :: m).isPrefixOf ((c :: m) ++ suf) || _) = true
      rw [isPrefixOf_append_self]
      rfl
  | cons c pre ih =>
    intro mid suf
    show (mid.isPrefixOf ((c :: pre) ++ mid ++ suf) || strIn mid (pre ++ mid ++ suf)) = true
    rw [ih mid suf, Bool.or_true]

theorem strIn_refl (l : List Char) : strIn l l = true := by
  have h := strIn_of_append [] l []
  simpa using h

/-- Every run produced by `str.split()` is a contiguous substring of
`cur.reverse ++ rest` (the already-consumed prefix plus the remainder). -/
theorem pySplitAux_sub : ∀ (rest cur : List Char) (t : List Char),
    t ∈ pySplitAux cur rest → ∃ pre suf, cur.reverse ++ rest = pre ++ t ++ suf := by
  intro rest
  induction rest with
  | nil =>
    intro cur t ht
    unfold pySplitAux at ht
    by_cases hc : cur.isEmpty = true
    · rw [if_pos hc] at ht
      simp at ht
    · rw [if_neg hc] at ht
      have : t = cur.reverse := by simpa using ht
      exact ⟨[], [], by simp [this]⟩
  | cons c cs ih =>
    intro cur t ht
    unfold pySplitAux at ht
    by_cases hsp : isSpaceC c = true
    · rw [if_pos hsp] at ht
      by_cases hc : cur.isEmpty = true
      · rw [if_pos hc] at ht
        have hcur : cur = [] := by
          cases cur with
          | nil => rfl
          | cons x xs => simp [List.isEmpty] at hc
        obtain ⟨pre, suf, h⟩ := ih [] t ht
        refine ⟨c :: pre, suf, ?_⟩
        rw [hcur]
        simp only [List.reverse_nil, List.nil_append, List.cons_append]
        simp only [List.reverse_nil, List.nil_append] at h
        rw [h]
      · rw [if_neg hc] at ht
        rcases List.mem_cons.mp ht with h | h
        · exact ⟨[], c :: cs, by simp [h]⟩
        · obtain ⟨pre, suf, hps⟩ := ih [] t h
          simp only [List.reverse_nil, List.nil_append] at hps
          refine ⟨cur.reverse ++ (c :: pre), suf, ?_⟩
          rw [List.append_assoc, List.append_assoc]
          congr 1
          rw [← List.append_assoc]
          simp [hps]
    · rw [if_neg hsp] at ht
      obtain ⟨pre, suf, hps⟩ := ih (c :: cur) t ht
      refine ⟨pre, suf, ?_⟩
      rw [← hps]
      simp

theorem mem_split_strIn (l : List Char) (t : List Char)
    (ht : t ∈ pySplitAux [] l) : strIn t l = true := by
  obtain ⟨pre, suf, h⟩ := pySplitAux_sub l [] t ht
  simp only [List.reverse_nil, List.nil_append] at h
  rw [h]
  exact strIn_of_append pre t suf

/-- C9: for a fixed non-empty query, a candidate whose lowercased name
equals the lowercased query gets a strictly higher rerank score from
`LightweightReranker` than an otherwise-identical candidate whose
lowercased name does not occur in the lowercased query (the code's
name-match test is substring containment `name_lower in query_lower`). -/
theorem C9_name_match_monotonic (query : String) (hq : query ≠ "")
    (rA rB : SearchResult)
    (hname : pyLower rA.metadata.name = pyLower query)
    (hnot : strIn (rB.metadata.name.data.map asciiLowerChar)
      (query.data.map asciiLowerChar) = false)
    (hcont : rA.content = rB.content)
    (htype : rA.metadata.chunk_type = rB.metadata.chunk_type)
    (hscore : rA.score = rB.score) :
    (lwAnnotate query rB).rerank_score.getD 0
      < (lwAnnotate query rA).rerank_score.getD 0 := by
  have hAgetD : (lwAnnotate query rA).rerank_score.getD 0
      = rA.score.getD 0 + lwBoost query rA := rfl
  have hBgetD : (lwAnnotate query rB).rerank_score.getD 0
      = rB.score.getD 0 + lwBoost query rB := rfl
  rw [hAgetD, hBgetD, hscore]
  have hboost : lwBoost query rB < lwBoost query rA := by
    have hnameChars : rA.metadata.name.data.map asciiLowerChar
        = query.data.map asciiLowerChar := congrArg String.data hname
    have hqdata : query.data ≠ [] := by
      intro hnil
      apply hq
      cases query with
      | mk d =>
        have hd : d = [] := hnil
        rw [hd]
    have hAne : rA.metadata.name ≠ "" := by
      intro hn
      rw [hn] at hnameChars
      have : query.data.map asciiLowerChar = [] := hnameChars.symm
      rcases List.map_eq_nil.mp this with h
      exact hqdata h
    have hBne : rB.metadata.name ≠ "" := by
      intro hn
      rw [hn] at hnot
      have := strIn_nil_left (query.data.map asciiLowerChar)
      rw [show ("" : String).data.map asciiLowerChar = [] from rfl] at hnot
      rw [this] at hnot
      cases hnot
    unfold lwBoost
    dsimp only
    rw [if_neg hAne, if_neg hBne, hcont, htype, hnameChars,
      if_pos (strIn_refl (query.data.map asciiLowerChar))]
    rw [if_neg (show ¬(strIn (rB.metadata.name.data.map asciiLowerChar)
        (query.data.map asciiLowerChar) = true) from by rw [hnot]; simp)]
    have hfilterA : ((pySplitAux [] (query.data.map asciiLowerChar)).dedup).filter
        (fun t => strIn t (query.data.map asciiLowerChar))
        = (pySplitAux [] (query.data.map asciiLowerChar)).dedup := by
      rw [List.filter_eq_self]
      intro t htm
      exact mem_split_strIn _ t (List.mem_dedup.mp htm)
    rw [hfilterA]
    have hlenB : (((((pySplitAux [] (query.data.map asciiLowerChar)).dedup).filter
        (fun t => strIn t (rB.metadata.name.data.map asciiLowerChar))).length : ℚ)
        ≤ (((pySplitAux [] (query.data.map asciiLowerChar)).dedup).length : ℚ)) := by
      exact_mod_cast List.length_filter_le _ _
    have hmul := mul_le_mul_of_nonneg_right hlenB (show (0 : ℚ) ≤ 3/20 by norm_num)
    linarith
  linarith

/-- Witness for C9 at concrete candidates. -/
theorem C9_name_match_monotonic_witness :
    (lwAnnotate "alpha" cand9B).rerank_score.getD 0
      < (lwAnnotate "alpha" cand9A).rerank_score.getD 0 := by
  have hB : strIn (cand9B.metadata.name.data.map asciiLowerChar)
      ("alpha".data.map asciiLowerChar) = false := by decide
  exact C9_name_match_monotonic "alpha" (by decide) cand9A cand9B (by decide) hB
    rfl rfl rfl

end CodebaseIntel

